import Mathlib

/-!
Verification of the `rust-json` codec (src/json.rs) against its specification.

The Rust source is shallowly embedded:
* `Num` / `JsonDtype` / `Json` mirror the value model (`Json` is the
  `HashMap<JsonDtype, JsonDtype>` modelled as an association list whose
  iteration order stands for the map's unspecified iteration order);
* `i128` values are `Int` with explicit range checks where the source calls
  `str::parse::<i128>`;
* `f64` payloads are kept as their source literal: IEEE-754 string-to-double
  conversion and double formatting are not modelled (floating point), and no
  theorem below concerns a `Float` value;
* Rust panics are the `.panic` result; the parser is driven by explicit fuel
  and fuel exhaustion is the separate `.out` result (a modelling artifact,
  never conflated with a panic in any theorem).
-/

namespace RustJson

/-- Whitespace test of `skip_whitespaces` (src/json.rs:9-17): only space,
newline and tab are skipped. -/
def isWs (c : Char) : Bool := c = ' ' || c = '\n' || c = '\t'

/-- `skip_whitespaces` (src/json.rs:9-17): drop leading whitespace characters. -/
def skipWs : List Char → List Char
  | [] => []
  | c :: rest => if isWs c then skipWs rest else c :: rest

/-- `enum Num` (src/json.rs:19-23). `Integer` carries an `i128` (here an `Int`
whose range is checked wherever the source parses one); `Float` carries the
numeric literal it was parsed from, since IEEE-754 doubles are not modelled. -/
inductive Num where
  | integer (i : Int)
  | float (lit : List Char)

/-- `enum JsonDtype` (src/json.rs:47-55): the JSON value model. An `Object`
payload is the association list modelling the `HashMap` of `struct Json`. -/
inductive JsonDtype where
  | string (s : List Char)
  | number (n : Num)
  | object (m : List (JsonDtype × JsonDtype))
  | array (a : List JsonDtype)
  | boolean (b : Bool)
  | null

/-- `struct Json` (src/json.rs:168-171): the map from values to values. -/
abbrev Json := List (JsonDtype × JsonDtype)

mutual

/-- Structural size of a value, used as fuel bound for `beqF`. -/
def sizeD : JsonDtype → Nat
  | .string _ => 1
  | .number _ => 1
  | .boolean _ => 1
  | .null => 1
  | .object m => 1 + sizeM m
  | .array a => 1 + sizeA a

/-- Structural size of an object's entry list. -/
def sizeM : List (JsonDtype × JsonDtype) → Nat
  | [] => 0
  | (k, v) :: rest => 1 + sizeD k + sizeD v + sizeM rest

/-- Structural size of an array's element list. -/
def sizeA : List JsonDtype → Nat
  | [] => 0
  | x :: rest => 1 + sizeD x + sizeA rest

end

/-- Derived `PartialEq` of `Num` (src/json.rs:19): same variant, equal payload.
`Integer(n)` and `Float(x)` are never equal. -/
def numBeq : Num → Num → Bool
  | .integer a, .integer b => a == b
  | .float a, .float b => a == b
  | _, _ => false

/-- Derived `PartialEq` of `JsonDtype` and of `Json` (src/json.rs:47, 168),
with explicit fuel (first argument) so that the definition computes in the
kernel. Scalars compare by payload; `Array` compares element-wise in order;
`Object` compares as `HashMap`: equal length and every entry of the left map
is found (by key equality) in the right map with an equal value. -/
def beqF : Nat → JsonDtype → JsonDtype → Bool
  | 0, _, _ => false
  | f+1, x, y =>
    match x, y with
    | .string a, .string b => a == b
    | .number a, .number b => numBeq a b
    | .boolean a, .boolean b => a == b
    | .null, .null => true
    | .array a, .array b =>
      a.length == b.length && (a.zip b).all (fun p => beqF f p.1 p.2)
    | .object a, .object b =>
      a.length == b.length &&
        a.all (fun kv =>
          match b.find? (fun kv2 => beqF f kv.1 kv2.1) with
          | some kv2 => beqF f kv.2 kv2.2
          | none => false)
    | _, _ => false

/-- Rust `==` on `JsonDtype` values: `beqF` at a provably sufficient fuel. -/
def JsonDtype.beq (x y : JsonDtype) : Bool := beqF (sizeD x + sizeD y + 1) x y

/-- Rust `==` on `Json` (the derived `PartialEq` of src/json.rs:168 is the
`HashMap` equality of the two maps). -/
def Json.beqMap (x y : Json) : Bool := JsonDtype.beq (.object x) (.object y)

/-- First value associated to a `==`-equal key in an association list; models
`HashMap` lookup (which relies on the `Eq` contract). -/
def findB (k : JsonDtype) : Json → Option JsonDtype
  | [] => none
  | (k2, v2) :: rest => if k.beq k2 then some v2 else findB k rest

/-- `Json::get` (src/json.rs:190-195): total lookup, `none` models Rust
`None` (a normal return value, not a failure). -/
def Json.get (m : Json) (k : JsonDtype) : Option JsonDtype := findB k m

/-- `Json::contains_key` (src/json.rs:507-509). -/
def Json.containsKey (m : Json) (k : JsonDtype) : Bool := (findB k m).isSome

/-- `HashMap::insert` as used by `Json::insert` (src/json.rs:197-203): if a
`==`-equal key is present its value is replaced (the stored key is kept),
otherwise the entry is added. -/
def Json.insertJ : Json → JsonDtype → JsonDtype → Json
  | [], k, v => [(k, v)]
  | (k2, v2) :: rest, k, v =>
    if k.beq k2 then (k2, v) :: rest else (k2, v2) :: Json.insertJ rest k v

/-- `Json::update` (src/json.rs:515-519): insert every entry of `other`,
in iteration order, into `self`. -/
def Json.update (m other : Json) : Json :=
  other.foldl (fun acc kv => acc.insertJ kv.1 kv.2) m

/-- Result of a Rust computation that can panic. `.out` marks fuel
exhaustion of the model and is distinct from a panic. -/
inductive PRes (α : Type) where
  | ok (a : α)
  | panic
  | out

/-- Rust `'0'..='9'` character range test. -/
def isDigit (c : Char) : Bool := '0' ≤ c && c ≤ '9'

/-- Numeric value of a nonempty all-digit character run, `none` otherwise. -/
def decDigitsVal : List Char → Option Nat
  | [] => none
  | cs => cs.foldl (fun acc c =>
      acc.bind (fun n => if isDigit c then some (10 * n + (c.toNat - 48)) else none))
      (some 0)

/-- Smallest `i128` value. -/
def i128Min : Int := -(2 ^ 127)

/-- Largest `i128` value. -/
def i128Max : Int := 2 ^ 127 - 1

/-- Modelled from `str::parse::<i128>` of the standard library (used at
src/json.rs:373): an optional sign followed by at least one decimal digit and
nothing else, rejecting values outside the signed 128-bit range. -/
def parseI128 (cs : List Char) : Option Int :=
  match cs with
  | '-' :: rest =>
    (decDigitsVal rest).bind (fun n =>
      if (n : Int) ≤ -i128Min then some (-(n : Int)) else none)
  | '+' :: rest =>
    (decDigitsVal rest).bind (fun n =>
      if (n : Int) ≤ i128Max then some ((n : Int)) else none)
  | _ =>
    (decDigitsVal cs).bind (fun n =>
      if (n : Int) ≤ i128Max then some ((n : Int)) else none)

/-- Drop one optional leading sign character. -/
def dropSign : List Char → List Char
  | '+' :: rest => rest
  | '-' :: rest => rest
  | cs => cs

/-- Mantissa shape accepted by `f64::from_str`: digits, or digits around a
single dot with at least one digit overall. -/
def mantOk (cs : List Char) : Bool :=
  let d1 := cs.takeWhile isDigit
  match cs.dropWhile isDigit with
  | [] => !d1.isEmpty
  | '.' :: r2 => r2.all isDigit && (!d1.isEmpty || !r2.isEmpty)
  | _ => false

/-- Exponent shape accepted by `f64::from_str`: absent, or `e`/`E`, an
optional sign and at least one digit. -/
def expOk : List Char → Bool
  | [] => true
  | 'e' :: r => (dropSign r ≠ []) && (dropSign r).all isDigit
  | 'E' :: r => (dropSign r ≠ []) && (dropSign r).all isDigit
  | _ => false

/-- Modelled from `f64::from_str` of the standard library (used at
src/json.rs:371): whether the literal is accepted. Overflow yields an
infinity, never an error, so the test is purely syntactic; the `inf`/`nan`
word forms cannot occur in a buffer built by `parse_number` and are omitted. -/
def f64Ok (cs : List Char) : Bool :=
  let body := dropSign cs
  mantOk (body.takeWhile (fun c => c ≠ 'e' && c ≠ 'E')) &&
    expOk (body.dropWhile (fun c => c ≠ 'e' && c ≠ 'E'))

/-- `Index for Json` (src/json.rs:543-552): lookup that panics on a miss. -/
def Json.index (m : Json) (k : JsonDtype) : PRes JsonDtype :=
  match findB k m with
  | some v => .ok v
  | none => .panic

/-- Replace the value stored under a `==`-equal key, `none` if absent. -/
def setExisting : Json → JsonDtype → JsonDtype → Option Json
  | [], _, _ => none
  | (k2, v2) :: rest, k, v =>
    if k.beq k2 then some ((k2, v) :: rest)
    else (setExisting rest k v).map (fun r => (k2, v2) :: r)

/-- `IndexMut for Json` followed by assignment (src/json.rs:554-561):
`get_mut(..).unwrap()` panics when the key is absent, otherwise the stored
value is overwritten. -/
def Json.indexMutSet (m : Json) (k v : JsonDtype) : PRes Json :=
  match setExisting m k v with
  | some r => .ok r
  | none => .panic

/-- Loop of `Json::parse_string` (src/json.rs:301-335). `acc` is the string
built so far and `skip` records that the previous character was an unescaped
backslash. A backslash toggles `skip` (producing `\` if `skip` was set); an
unescaped quote ends the string; every other character is pushed and clears
`skip`. Reaching the end of input is a panic. -/
def parseStringLoop (acc : List Char) (skip : Bool) :
    List Char → PRes (JsonDtype × List Char)
  | [] => .panic
  | c :: rest =>
    if c = '\\' then
      if skip then parseStringLoop (acc ++ ['\\']) false rest
      else parseStringLoop acc true rest
    else if c = '"' then
      if skip then parseStringLoop (acc ++ ['"']) false rest
      else .ok (.string acc, rest)
    else parseStringLoop (acc ++ [c]) false rest

/-- `Json::parse_string` (src/json.rs:301-335): consume the opening quote,
then run the accumulation loop. -/
def parseString : List Char → PRes (JsonDtype × List Char)
  | [] => parseStringLoop [] false []
  | _ :: rest => parseStringLoop [] false rest

/-- Loop of `Json::parse_number` (src/json.rs:347-377). A dot is pushed and
is fatal if a dot or exponent was already seen; `e`/`E` is fatal if repeated;
digits accumulate; any other character (not consumed) ends the number, which
is then converted by `f64::from_str` when a dot was seen and by
`str::parse::<i128>` otherwise, a conversion failure being fatal. End of
input inside a number is fatal. -/
def parseNumLoop (acc : List Char) (isFloat isExp : Bool) :
    List Char → PRes (JsonDtype × List Char)
  | [] => .panic
  | c :: rest =>
    if c = '.' then
      if isFloat || isExp then .panic
      else parseNumLoop (acc ++ ['.']) true isExp rest
    else if c = 'e' || c = 'E' then
      if isExp then .panic
      else parseNumLoop (acc ++ [c]) isFloat true rest
    else if isDigit c then
      parseNumLoop (acc ++ [c]) isFloat isExp rest
    else
      if isFloat then
        if f64Ok acc then .ok (.number (.float acc), c :: rest) else .panic
      else
        match parseI128 acc with
        | some i => .ok (.number (.integer i), c :: rest)
        | none => .panic

/-- `Json::parse_number` (src/json.rs:337-378): peek the first character
(panicking on end of input, as `unwrap` does), take an optional minus sign,
then run the accumulation loop. -/
def parseNumber : List Char → PRes (JsonDtype × List Char)
  | [] => .panic
  | c :: rest =>
    if c = '-' then parseNumLoop ['-'] false false rest
    else parseNumLoop [] false false (c :: rest)

/-- Characters consumed greedily by `Json::parse_boolean`. -/
def isBoolChar (c : Char) : Bool :=
  c = 't' || c = 'r' || c = 'u' || c = 'e' || c = 'f' || c = 'a' || c = 'l' || c = 's'

/-- Loop of `Json::parse_boolean` (src/json.rs:380-403): consume characters
from the `true`/`false` alphabet, then compare the buffer against the two
literals; anything else, or end of input, is fatal. -/
def parseBoolLoop (acc : List Char) : List Char → PRes (JsonDtype × List Char)
  | [] => .panic
  | c :: rest =>
    if isBoolChar c then parseBoolLoop (acc ++ [c]) rest
    else if acc = "true".toList then .ok (.boolean true, c :: rest)
    else if acc = "false".toList then .ok (.boolean false, c :: rest)
    else .panic

/-- `Json::parse_boolean` (src/json.rs:380-403). -/
def parseBoolean (input : List Char) : PRes (JsonDtype × List Char) :=
  parseBoolLoop [] input

/-- Characters consumed greedily by `Json::parse_null`. -/
def isNullChar (c : Char) : Bool := c = 'n' || c = 'u' || c = 'l'

/-- Loop of `Json::parse_null` (src/json.rs:405-423): consume characters from
`n`/`u`/`l`, then require the buffer to be `null`; anything else, or end of
input, is fatal. -/
def parseNullLoop (acc : List Char) : List Char → PRes (JsonDtype × List Char)
  | [] => .panic
  | c :: rest =>
    if isNullChar c then parseNullLoop (acc ++ [c]) rest
    else if acc = "null".toList then .ok (.null, c :: rest)
    else .panic

/-- `Json::parse_null` (src/json.rs:405-423). -/
def parseNull (input : List Char) : PRes (JsonDtype × List Char) :=
  parseNullLoop [] input

/-- Continuation points of the mutually recursive part of the parser:
`value` is `Json::parse_value` (src/json.rs:283-299), `arrLoop` the loop of
`Json::parse_array` (src/json.rs:425-444) with the elements parsed so far,
and `objLoop` the loop of `Json::parse_object` (src/json.rs:446-493) with
the object built so far. -/
inductive PMode where
  | value (input : List Char)
  | arrLoop (acc : List JsonDtype) (input : List Char)
  | objLoop (acc : Json) (input : List Char)

/-- One fueled step function for `parse_value` / `parse_array` /
`parse_object`. `parse_value` skips whitespace and dispatches on the next
character (panicking at end of input or on an unexpected character, as the
source's `unwrap`/`panic!` do); `[` and `{` are consumed here, as
`parse_array` and `parse_object` consume them first thing. The array loop
checks for end of input (fatal), skips whitespace, and on `]` returns, on
`,` just continues, and otherwise parses a value and appends it. The object
loop checks for end of input (fatal), skips whitespace, returns on `}`, and
otherwise parses a key value, requires `:`, parses a value, inserts the
pair, and then requires `,` (continue) or `}` (return). -/
def pstep : Nat → PMode → PRes (JsonDtype × List Char)
  | 0, _ => .out
  | f+1, .value input =>
    match skipWs input with
    | [] => .panic
    | c :: rest =>
      if c = '"' then parseString (c :: rest)
      else if isDigit c || c = '-' then parseNumber (c :: rest)
      else if c = 't' || c = 'f' then parseBoolean (c :: rest)
      else if c = 'n' then parseNull (c :: rest)
      else if c = '[' then pstep f (.arrLoop [] rest)
      else if c = '{' then pstep f (.objLoop [] rest)
      else .panic
  | f+1, .arrLoop acc input =>
    match input with
    | [] => .panic
    | _ :: _ =>
      match skipWs input with
      | [] => .panic
      | c :: rest =>
        if c = ']' then .ok (.array acc, rest)
        else if c = ',' then pstep f (.arrLoop acc rest)
        else
          match pstep f (.value (c :: rest)) with
          | .ok (v, r) => pstep f (.arrLoop (acc ++ [v]) r)
          | .panic => .panic
          | .out => .out
  | f+1, .objLoop acc input =>
    match input with
    | [] => .panic
    | _ :: _ =>
      match skipWs input with
      | [] => .panic
      | c :: rest =>
        if c = '}' then .ok (.object acc, rest)
        else
          match pstep f (.value (c :: rest)) with
          | .ok (key, r1) =>
            (match skipWs r1 with
             | ':' :: r2 =>
               (match pstep f (.value r2) with
                | .ok (val, r3) =>
                  (match skipWs r3 with
                   | ',' :: r4 => pstep f (.objLoop (acc.insertJ key val) r4)
                   | '}' :: r4 => .ok (.object (acc.insertJ key val), r4)
                   | _ => .panic)
                | .panic => .panic
                | .out => .out)
             | _ => .panic)
          | .panic => .panic
          | .out => .out

/-- `Json::parse` (src/json.rs:266-281) at a given fuel: skip leading
whitespace; `{` starts an object, `[` starts an array whose result is
wrapped under the key `"data"` of a fresh object; anything else is fatal.
Input remaining after the parsed form is ignored, as in the source. -/
def Json.parseTop (fuel : Nat) (input : List Char) : PRes Json :=
  match skipWs input with
  | [] => .panic
  | c :: rest =>
    if c = '{' then
      match pstep fuel (.objLoop [] rest) with
      | .ok (.object m, _) => .ok m
      | .ok _ => .panic
      | .panic => .panic
      | .out => .out
    else if c = '[' then
      match pstep fuel (.arrLoop [] rest) with
      | .ok (arr, _) => .ok (Json.insertJ [] (.string "data".toList) arr)
      | .panic => .panic
      | .out => .out
    else .panic

/-- `Json::parse` with fuel sufficient for any input of this length (each
unit of nesting or of consumed input costs at most two steps). -/
def Json.parse (input : List Char) : PRes Json :=
  Json.parseTop (2 * input.length + 8) input

/-- Decimal digits of a natural number, most significant first, via fuel
(the fuel `n + 1` always suffices since `n / 10` shrinks). -/
def natDigsAux : Nat → Nat → List Char
  | 0, _ => []
  | f+1, n =>
    if n < 10 then [Char.ofNat (48 + n)]
    else natDigsAux f (n / 10) ++ [Char.ofNat (48 + n % 10)]

/-- Decimal digits of a natural number, most significant first. -/
def natDigs (n : Nat) : List Char := natDigsAux (n + 1) n

/-- Modelled from the `Display` of `i128` in the standard library (used at
src/json.rs:28): an optional minus sign followed by the decimal digits. -/
def intDisp (i : Int) : List Char :=
  if i < 0 then '-' :: natDigs i.natAbs else natDigs i.natAbs

/-- `Display for Num` (src/json.rs:25-32). The `Float` case delegates to the
`Display` of `f64`, which is not modelled; no theorem below displays a
`Float` value. -/
def numDisp : Num → List Char
  | .integer i => intDisp i
  | .float lit => lit

/-- `str::replace` with a one-character pattern: every occurrence of `p` is
replaced by `r`. -/
def replaceAll (p : Char) (r : List Char) : List Char → List Char
  | [] => []
  | c :: rest => (if c = p then r else [c]) ++ replaceAll p r rest

/-- The escaping of `Display for JsonDtype` on strings (src/json.rs:148):
`s.replace('\\', "\\\\").replace('"', "\\\"")`. -/
def escapeStr (s : List Char) : List Char :=
  replaceAll '"' ['\\', '"'] (replaceAll '\\' ['\\', '\\'] s)

/-- String rendering of `Display for JsonDtype` (src/json.rs:147-149): the
escaped content between double quotes. -/
def dispString (s : List Char) : List Char := '"' :: escapeStr s ++ ['"']

mutual

/-- `Display for JsonDtype` (src/json.rs:144-166): strings are quoted and
escaped, numbers print their value, objects print as `{k: v, ...}` by the
`Display` of `Json` (src/json.rs:563-574, inlined here), arrays as
`[a, b, ...]`, booleans as `true`/`false`, null as `null`. -/
def dispD : JsonDtype → List Char
  | .string s => dispString s
  | .number n => numDisp n
  | .object m => '{' :: dispM m ++ ['}']
  | .array a => '[' :: dispA a ++ [']']
  | .boolean b => if b then "true".toList else "false".toList
  | .null => "null".toList

/-- Entry list of an object as displayed: `k: v` joined by `, `. -/
def dispM : List (JsonDtype × JsonDtype) → List Char
  | [] => []
  | (k, v) :: rest => dispD k ++ ':' :: ' ' :: dispD v ++ dispMT rest

/-- Non-first displayed object entries, each preceded by `, `. -/
def dispMT : List (JsonDtype × JsonDtype) → List Char
  | [] => []
  | (k, v) :: rest => ',' :: ' ' :: dispD k ++ ':' :: ' ' :: dispD v ++ dispMT rest

/-- Element list of an array as displayed, joined by `, `. -/
def dispA : List JsonDtype → List Char
  | [] => []
  | x :: rest => dispD x ++ dispAT rest

/-- Non-first displayed array elements, each preceded by `, `. -/
def dispAT : List JsonDtype → List Char
  | [] => []
  | x :: rest => ',' :: ' ' :: dispD x ++ dispAT rest

end

/-- One entry of `Json::stringify` (src/json.rs:224-227): a `String` key
renders by its display form (which quotes it); any other key variant is
wrapped in double quotes around its display form. -/
def strifyEntry (kv : JsonDtype × JsonDtype) : List Char :=
  match kv.1 with
  | .string _ => dispD kv.1 ++ ':' :: ' ' :: dispD kv.2
  | _ => '"' :: dispD kv.1 ++ '"' :: ':' :: ' ' :: dispD kv.2

/-- Non-first `Json::stringify` entries, each preceded by `, `. -/
def strifyMT : Json → List Char
  | [] => []
  | kv :: rest => ',' :: ' ' :: strifyEntry kv ++ strifyMT rest

/-- Entries of `Json::stringify`, joined by `, `. -/
def strifyM : Json → List Char
  | [] => []
  | kv :: rest => strifyEntry kv ++ strifyMT rest

/-- `Json::stringify` (src/json.rs:216-231): the entries between braces. -/
def Json.stringify (m : Json) : List Char := '{' :: strifyM m ++ ['}']

/-- Injective code of a string payload fed to a hasher write. -/
def strCode (s : List Char) : Nat :=
  s.foldl (fun a c => a * 1114112 + c.toNat + 1) 1

/-- Injective code of an integer payload fed to a hasher write. -/
def intCode (i : Int) : Nat := if i < 0 then 2 * i.natAbs + 1 else 2 * i.natAbs

mutual

/-- Derived `Hash` of `JsonDtype` (src/json.rs:47) over an abstract hasher:
`step` folds one written word into the hasher state. A variant writes its
discriminant and then its payload; `Object` then hashes by `impl Hash for
Json` (src/json.rs:173-180), which feeds every entry's key and value into
the hasher in iteration order; `Array` writes its length then its elements
(`Hash` of `Vec`). -/
def hashD (step : Nat → Nat → Nat) : JsonDtype → Nat → Nat
  | .string s, st => step (step st 0) (strCode s)
  | .number (.integer i), st => step (step (step st 1) 0) (intCode i)
  | .number (.float lit), st => step (step (step st 1) 1) (strCode lit)
  | .object m, st => hashM step m (step st 2)
  | .array a, st => hashA step a (step (step st 3) a.length)
  | .boolean b, st => step (step st 4) (if b then 1 else 0)
  | .null, st => step st 5

/-- `impl Hash for Json` (src/json.rs:173-180): for every entry in iteration
order, hash the key into the state, then the value. -/
def hashM (step : Nat → Nat → Nat) : List (JsonDtype × JsonDtype) → Nat → Nat
  | [], st => st
  | (k, v) :: rest, st => hashM step rest (hashD step v (hashD step k st))

/-- `Hash` of the element list of a `Vec`: elements in order. -/
def hashA (step : Nat → Nat → Nat) : List JsonDtype → Nat → Nat
  | [], st => st
  | x :: rest, st => hashA step rest (hashD step x st)

end

/-- `impl Hash for Json` (src/json.rs:173-180) on a map. -/
def Json.hashJ (step : Nat → Nat → Nat) (m : Json) (st : Nat) : Nat :=
  hashM step m st

/-- No string occurs twice in the list. -/
def noDupStr : List (List Char) → Bool
  | [] => true
  | s :: rest => !(rest.contains s) && noDupStr rest

/-- Test that a value is a `String` variant. -/
def isStringKey : JsonDtype → Bool
  | .string _ => true
  | _ => false

/-- String payload of a key (empty for non-string keys; used only where all
keys are strings). -/
def keyStr : JsonDtype → List Char
  | .string s => s
  | _ => []

/-- String payloads of an object's keys (defined for all-string-key maps). -/
def keyStrs : Json → List (List Char)
  | [] => []
  | (k, _) :: rest => keyStr k :: keyStrs rest

mutual

/-- Values in the round-trippable fragment: every object key is a `String`,
keys within one object are distinct, every integer is in `i128` range, and
no `Float` occurs. -/
def goodD : JsonDtype → Bool
  | .string _ => true
  | .number (.integer i) => decide (i128Min ≤ i) && decide (i ≤ i128Max)
  | .number (.float _) => false
  | .boolean _ => true
  | .null => true
  | .object m => goodM m && noDupStr (keyStrs m)
  | .array a => goodA a

/-- Entries of a good object: string keys and good values. -/
def goodM : List (JsonDtype × JsonDtype) → Bool
  | [] => true
  | (k, v) :: rest => isStringKey k && goodD v && goodM rest

/-- Elements of a good array. -/
def goodA : List JsonDtype → Bool
  | [] => true
  | x :: rest => goodD x && goodA rest

end

/-- A good map (the `Json` level of `goodD`). -/
def goodJ (m : Json) : Bool := goodD (.object m)

/-- Key `k` is not `==`-related, in either direction, to any key in the list. -/
def noBeqKey (k : JsonDtype) : List JsonDtype → Bool
  | [] => true
  | k2 :: rest => !k.beq k2 && !k2.beq k && noBeqKey k rest

/-- No two keys in the list are `==`-related in either direction. -/
def pairwiseNoBeq : List JsonDtype → Bool
  | [] => true
  | k :: rest => noBeqKey k rest && pairwiseNoBeq rest

/-- Keys of a map, in order. -/
def keysOf : Json → List JsonDtype
  | [] => []
  | (k, _) :: rest => k :: keysOf rest

mutual

/-- Well-formed values: inside every object, no two keys are `==`-equal.
Maps built through the `HashMap` interface satisfy this whenever the `Hash`
contract holds (see the C2 analysis for the defect that can break it). -/
def wfD : JsonDtype → Bool
  | .object m => wfM m && pairwiseNoBeq (keysOf m)
  | .array a => wfA a
  | _ => true

/-- Entries of a well-formed object: keys and values well-formed. -/
def wfM : List (JsonDtype × JsonDtype) → Bool
  | [] => true
  | (k, v) :: rest => wfD k && wfD v && wfM rest

/-- Elements of a well-formed array. -/
def wfA : List JsonDtype → Bool
  | [] => true
  | x :: rest => wfD x && wfA rest

end

/-- A well-formed map (the `Json` level of `wfD`). -/
def wfJ (m : Json) : Bool := wfD (.object m)

set_option maxRecDepth 200000

/-- A missing key makes `setExisting` fail. -/
theorem setExisting_none (o : Json) (k v : JsonDtype) (h : findB k o = none) :
    setExisting o k v = none := by
  induction o with
  | nil => rfl
  | cons kv rest ih =>
    obtain ⟨k2, v2⟩ := kv
    simp only [findB] at h
    simp only [setExisting]
    by_cases hb : k.beq k2 = true
    · simp [hb] at h
    · simp only [Bool.not_eq_true] at hb
      simp [hb] at h ⊢
      exact ih h

/-- Unfolding of `pstep` at zero fuel. -/
theorem pstep_zero (m : PMode) : pstep 0 m = .out := rfl

/-- Unfolding of `pstep` on a `value` continuation. -/
theorem pstep_value (f : Nat) (input : List Char) :
    pstep (f+1) (.value input) = (match skipWs input with
      | [] => .panic
      | c :: rest =>
        if c = '"' then parseString (c :: rest)
        else if isDigit c || c = '-' then parseNumber (c :: rest)
        else if c = 't' || c = 'f' then parseBoolean (c :: rest)
        else if c = 'n' then parseNull (c :: rest)
        else if c = '[' then pstep f (.arrLoop [] rest)
        else if c = '{' then pstep f (.objLoop [] rest)
        else .panic) := rfl

/-- Unfolding of `pstep` on an `arrLoop` continuation. -/
theorem pstep_arr (f : Nat) (acc : List JsonDtype) (input : List Char) :
    pstep (f+1) (.arrLoop acc input) = (match input with
      | [] => .panic
      | _ :: _ =>
        match skipWs input with
        | [] => .panic
        | c :: rest =>
          if c = ']' then .ok (.array acc, rest)
          else if c = ',' then pstep f (.arrLoop acc rest)
          else
            match pstep f (.value (c :: rest)) with
            | .ok (v, r) => pstep f (.arrLoop (acc ++ [v]) r)
            | .panic => .panic
            | .out => .out) := rfl

/-- Unfolding of `pstep` on an `objLoop` continuation. -/
theorem pstep_obj (f : Nat) (acc : Json) (input : List Char) :
    pstep (f+1) (.objLoop acc input) = (match input with
      | [] => .panic
      | _ :: _ =>
        match skipWs input with
        | [] => .panic
        | c :: rest =>
          if c = '}' then .ok (.object acc, rest)
          else
            match pstep f (.value (c :: rest)) with
            | .ok (key, r1) =>
              (match skipWs r1 with
               | ':' :: r2 =>
                 (match pstep f (.value r2) with
                  | .ok (val, r3) =>
                    (match skipWs r3 with
                     | ',' :: r4 => pstep f (.objLoop (acc.insertJ key val) r4)
                     | '}' :: r4 => .ok (.object (acc.insertJ key val), r4)
                     | _ => .panic)
                  | .panic => .panic
                  | .out => .out)
               | _ => .panic)
            | .panic => .panic
            | .out => .out) := rfl

/-- The array loop only ever returns `Array` values. -/
theorem arrLoop_shape (f : Nat) :
    ∀ acc input v r, pstep f (.arrLoop acc input) = .ok (v, r) → ∃ l, v = .array l := by
  induction f with
  | zero =>
    intro acc input v r h
    rw [pstep_zero] at h
    cases h
  | succ f ih =>
    intro acc input v r h
    rw [pstep_arr] at h
    split at h
    · cases h
    · split at h
      · cases h
      · split at h
        · injection h with h1
          injection h1 with h2 h3
          exact ⟨acc, h2.symm⟩
        · split at h
          · exact ih _ _ _ _ h
          · split at h
            · exact ih _ _ _ _ h
            · cases h
            · cases h

/-- C5: an input whose first non-whitespace character is `[` parses, when it
parses at all, to an object with the single key `"data"` bound to the parsed
array; in particular `[]` parses to the object mapping `"data"` to the empty
array. -/
theorem C5_array_wrapped_under_data (s : List Char) (o : Json)
    (harr : ∃ r, skipWs s = '[' :: r) (hok : Json.parse s = .ok o) :
    (∃ l, o = [(.string "data".toList, .array l)])
    ∧ Json.parse "[]".toList = .ok [(.string "data".toList, .array [])] := by
  refine ⟨?_, rfl⟩
  obtain ⟨r, hr⟩ := harr
  unfold Json.parse Json.parseTop at hok
  rw [hr] at hok
  simp only [reduceIte, Char.reduceEq] at hok
  split at hok
  next arr r2 hp =>
    obtain ⟨l, hl⟩ := arrLoop_shape _ _ _ _ _ hp
    subst hl
    injection hok with h1
    exact ⟨l, h1.symm⟩
  next => cases hok
  next => cases hok

/-- Witness for C5 at the concrete input `[]`. -/
theorem C5_array_wrapped_under_data_witness :
    ∃ l, ([(.string "data".toList, .array [])] : Json)
      = [(.string "data".toList, .array l)] :=
  (C5_array_wrapped_under_data "[]".toList [(.string "data".toList, .array [])]
    ⟨[']'], rfl⟩ rfl).1

/-- C6: when a key occurs twice in an object literal the last occurrence
wins: parsing the thirteen characters of the object text assigning first 1
and then 2 to the key `a` yields the one-entry object mapping `a` to
`Integer 2`. -/
theorem C6_duplicate_keys_last_wins :
    Json.parse ['\x7b', '"', 'a', '"', ':', '1', ',', '"', 'a', '"', ':', '2', '\x7d']
      = .ok [(.string ['a'], .number (.integer 2))] := rfl

/-- C8: the only whitespace characters are space, newline and tab; a
carriage return is not skipped, and an input whose first character is a
carriage return fails fatally both at top level and where a value is
expected. -/
theorem C8_whitespace (c : Char) (s : List Char) (f : Nat) :
    ((c = ' ' ∨ c = '\n' ∨ c = '\t') → skipWs (c :: s) = skipWs s)
    ∧ (¬(c = ' ' ∨ c = '\n' ∨ c = '\t') → skipWs (c :: s) = c :: s)
    ∧ Json.parse ('\r' :: s) = .panic
    ∧ pstep (f+1) (.value ('\r' :: s)) = .panic := by
  refine ⟨?_, ?_, ?_, ?_⟩
  · intro h
    have : isWs c = true := by rcases h with h | h | h <;> simp [isWs, h]
    simp [skipWs, this]
  · intro h
    have : isWs c = false := by
      simp only [isWs]
      rcases Decidable.em (c = ' ') with h1 | h1
      · exact absurd (Or.inl h1) h
      · rcases Decidable.em (c = '\n') with h2 | h2
        · exact absurd (Or.inr (Or.inl h2)) h
        · rcases Decidable.em (c = '\t') with h3 | h3
          · exact absurd (Or.inr (Or.inr h3)) h
          · simp [h1, h2, h3]
    simp [skipWs, this]
  · have hskip : skipWs ('\r' :: s) = '\r' :: s := by simp [skipWs, isWs]
    unfold Json.parse Json.parseTop
    rw [hskip]
    rfl
  · have hskip : skipWs ('\r' :: s) = '\r' :: s := by simp [skipWs, isWs]
    rw [pstep_value]
    simp only [hskip]
    rw [if_neg (by decide), if_neg (by decide), if_neg (by decide),
      if_neg (by decide), if_neg (by decide), if_neg (by decide)]

/-- Witness for C8 at the carriage-return character and the empty tail. -/
theorem C8_whitespace_witness :
    skipWs ['\r'] = ['\r'] ∧ Json.parse ['\r'] = .panic :=
  ⟨(C8_whitespace '\r' [] 0).2.1 (by decide), (C8_whitespace '\r' [] 0).2.2.1⟩

/-- C9: on a missing key, indexed read and indexed write both fail fatally
while `get` returns `None` as an ordinary value. -/
theorem C9_index_fatal_get_total (o : Json) (k v : JsonDtype)
    (h : o.containsKey k = false) :
    o.index k = .panic ∧ o.indexMutSet k v = .panic ∧ o.get k = none := by
  have hn : findB k o = none := by
    revert h
    unfold Json.containsKey
    match findB k o with
    | none => intro _; rfl
    | some w => intro h; simp at h
  refine ⟨?_, ?_, hn⟩
  · unfold Json.index
    rw [hn]
  · unfold Json.indexMutSet
    rw [setExisting_none o k v hn]

/-- Witness for C9: the empty object misses the key `x`. -/
theorem C9_index_fatal_get_total_witness :
    Json.index [] (.string ['x']) = .panic
    ∧ Json.indexMutSet [] (.string ['x']) .null = .panic
    ∧ Json.get [] (.string ['x']) = none :=
  C9_index_fatal_get_total [] (.string ['x']) .null rfl

/-- C10: inside an array, a next non-whitespace character that is neither
`]` nor `,` is parsed as a value and appended, so elements need not be
separated by commas: `[1 2 3]` parses exactly like `[1,2,3]`. -/
theorem C10_commaless_arrays (f : Nat) (acc : List JsonDtype)
    (input : List Char) (c : Char) (rest : List Char)
    (h : skipWs input = c :: rest) (hc1 : c ≠ ']') (hc2 : c ≠ ',') :
    (pstep (f+1) (.arrLoop acc input) =
      match pstep f (.value (c :: rest)) with
      | .ok (v, r) => pstep f (.arrLoop (acc ++ [v]) r)
      | .panic => .panic
      | .out => .out)
    ∧ Json.parse "[1 2 3]".toList
        = .ok [(.string "data".toList,
            .array [.number (.integer 1), .number (.integer 2), .number (.integer 3)])]
    ∧ Json.parse "[1,2,3]".toList
        = .ok [(.string "data".toList,
            .array [.number (.integer 1), .number (.integer 2), .number (.integer 3)])] := by
  refine ⟨?_, rfl, rfl⟩
  cases input with
  | nil => simp [skipWs] at h
  | cons c0 in0 =>
    rw [pstep_arr]
    simp only [h]
    rw [if_neg hc1, if_neg hc2]

/-- Witness for C10 at the singleton array text `1]`. -/
theorem C10_commaless_arrays_witness :
    pstep 10 (.arrLoop [] ['1', ']']) =
      match pstep 9 (.value ['1', ']']) with
      | .ok (v, r) => pstep 9 (.arrLoop ([] ++ [v]) r)
      | .panic => .panic
      | .out => .out :=
  (C10_commaless_arrays 9 [] ['1', ']'] '1' [']'] rfl (by decide) (by decide)).1

/-- A concrete non-commutative hasher-state transition used to exhibit the
order dependence of the object hash. -/
def demoStep (s x : Nat) : Nat := 31 * s + x + 1

/-- C2: two maps that are equal by the `HashMap` equality of the source but
hold their entries in opposite iteration orders hash to different values
under a non-commutative hasher, because `impl Hash for Json` feeds the
entries into the hasher sequentially in iteration order instead of
combining per-entry hashes commutatively. -/
theorem C2_hash_depends_on_order :
    Json.beqMap
        [(.string ['a'], .number (.integer 0)), (.string ['b'], .number (.integer 1))]
        [(.string ['b'], .number (.integer 1)), (.string ['a'], .number (.integer 0))]
      = true
    ∧ Json.hashJ demoStep
        [(.string ['a'], .number (.integer 0)), (.string ['b'], .number (.integer 1))] 0
      ≠ Json.hashJ demoStep
        [(.string ['b'], .number (.integer 1)), (.string ['a'], .number (.integer 0))] 0 :=
  ⟨rfl, by decide⟩

/-- C3 counterexample: the string literal `"a\nb"` (with a real backslash
before the `n`) parses to the three characters `a`, `n`, `b`: the backslash
is dropped, contradicting the claim that a backslash before an unsupported
escape is copied verbatim. -/
theorem C3_counterexample :
    parseString ['"', 'a', '\\', 'n', 'b', '"'] = .ok (.string ['a', 'n', 'b'], [])
    ∧ '\\' ∉ (['a', 'n', 'b'] : List Char) :=
  ⟨rfl, by decide⟩

/-- C3 amended: in string parsing every character other than the two
supported escapes is copied, but a backslash that precedes anything other
than `\` or `"` is consumed and dropped, so `\n` parses as the single
character `n`: the string loop treats `\c` exactly as it treats a bare `c`
for such characters. -/
theorem C3_backslash_dropped (c : Char) (acc rest : List Char)
    (h1 : c ≠ '\\') (h2 : c ≠ '"') :
    parseStringLoop acc false ('\\' :: c :: rest)
      = parseStringLoop acc false (c :: rest)
    ∧ parseString ['"', '\\', 'n', '"'] = .ok (.string ['n'], []) := by
  refine ⟨?_, rfl⟩
  simp [parseStringLoop, h1, h2]

/-- Witness for C3 amended at `c = n`. -/
theorem C3_backslash_dropped_witness :
    parseStringLoop [] false ['\\', 'n', '"'] = parseStringLoop [] false ['n', '"'] :=
  (C3_backslash_dropped 'n' [] ['"'] (by decide) (by decide)).1

/-- C1 counterexample: the accepted input `{1:2}` parses to an object with
the Integer key 1, but its compact serialization re-quotes the key, so the
reparse yields a String key `"1"` and the two parse results are unequal by
the source's object equality. -/
theorem C1_counterexample :
    Json.parse ['\x7b', '1', ':', '2', '\x7d']
      = .ok [(.number (.integer 1), .number (.integer 2))]
    ∧ Json.parse (Json.stringify [(.number (.integer 1), .number (.integer 2))])
      = .ok [(.string ['1'], .number (.integer 2))]
    ∧ Json.beqMap [(.string ['1'], .number (.integer 2))]
        [(.number (.integer 1), .number (.integer 2))] = false :=
  ⟨rfl, rfl, rfl⟩

/-- Folding digit accumulation over a dead accumulator stays dead. -/
theorem digitsFoldl_none (cs : List Char) :
    cs.foldl (fun acc c =>
      acc.bind (fun n => if isDigit c then some (10 * n + (c.toNat - 48)) else none))
      none = none := by
  induction cs with
  | nil => rfl
  | cons c rest ih => simpa using ih

/-- A non-digit anywhere makes the digit-run value undefined. -/
theorem digitsFoldl_mem_none (cs : List Char) (x : Char) (hx : x ∈ cs)
    (hnd : isDigit x = false) (acc : Option Nat) :
    cs.foldl (fun acc c =>
      acc.bind (fun n => if isDigit c then some (10 * n + (c.toNat - 48)) else none))
      acc = none := by
  induction cs generalizing acc with
  | nil => cases hx
  | cons c rest ih =>
    rcases List.mem_cons.1 hx with h | h
    · subst h
      have : (acc.bind (fun n => if isDigit x then some (10 * n + (x.toNat - 48)) else none))
          = none := by
        cases acc with
        | none => rfl
        | some n => simp [hnd]
      simp only [List.foldl_cons, this]
      exact digitsFoldl_none rest
    · exact ih h _

/-- A non-digit anywhere makes `decDigitsVal` fail. -/
theorem decDigitsVal_none (cs : List Char) (x : Char) (hx : x ∈ cs)
    (hnd : isDigit x = false) : decDigitsVal cs = none := by
  cases cs with
  | nil => rfl
  | cons c rest =>
    show (c :: rest).foldl _ (some 0) = none
    exact digitsFoldl_mem_none _ x hx hnd _

/-- The digit branch of the number loop consumes a digit run into the
accumulator. -/
theorem parseNumLoop_digits (ds : List Char) (hds : ∀ x ∈ ds, isDigit x = true) :
    ∀ acc iF iE r, parseNumLoop acc iF iE (ds ++ r) = parseNumLoop (acc ++ ds) iF iE r := by
  induction ds with
  | nil => intro acc iF iE r; simp
  | cons d ds ih =>
    intro acc iF iE r
    have hd : isDigit d = true := hds d (List.mem_cons_self d ds)
    have h1 : d ≠ '.' := by intro h; subst h; simp [isDigit] at hd
    have h2 : d ≠ 'e' := by intro h; subst h; simp [isDigit] at hd
    have h3 : d ≠ 'E' := by intro h; subst h; simp [isDigit] at hd
    show parseNumLoop acc iF iE (d :: (ds ++ r)) = _
    rw [parseNumLoop]
    rw [if_neg h1, if_neg (by simp [h2, h3]), if_pos hd]
    rw [ih (fun x hx => hds x (List.mem_cons_of_mem d hx))]
    simp

/-- C4: a numeric literal with an exponent marker but no decimal point fails
fatally, with or without a leading minus sign, because the accumulated text
is handed to the 128-bit integer converter, which rejects the marker; in
particular the object text assigning `1e3` to the key `a` fails fatally. -/
theorem C4_exponent_without_dot_fatal (d1 d2 rest : List Char) (mark c : Char)
    (h1 : d1 ≠ []) (hd1 : ∀ x ∈ d1, isDigit x = true)
    (hd2 : ∀ x ∈ d2, isDigit x = true)
    (hm : mark = 'e' ∨ mark = 'E')
    (hc1 : isDigit c = false) (hc2 : c ≠ '.') (hc3 : c ≠ 'e') (hc4 : c ≠ 'E') :
    parseNumber (d1 ++ mark :: d2 ++ c :: rest) = .panic
    ∧ parseNumber ('-' :: (d1 ++ mark :: d2 ++ c :: rest)) = .panic
    ∧ Json.parse ['\x7b', '"', 'a', '"', ':', '1', 'e', '3', '\x7d'] = .panic := by
  have hmd : isDigit mark = false := by rcases hm with h | h <;> subst h <;> decide
  have hloop : ∀ acc0,
      parseNumLoop acc0 false false (d1 ++ ((mark :: d2) ++ (c :: rest)))
      = (match parseI128 (((acc0 ++ d1) ++ [mark]) ++ d2) with
         | some i => .ok (.number (.integer i), c :: rest)
         | none => .panic) := by
    intro acc0
    rw [parseNumLoop_digits d1 hd1]
    simp only [List.cons_append]
    rw [parseNumLoop]
    have hmdot : mark ≠ '.' := by rcases hm with h | h <;> subst h <;> decide
    rw [if_neg hmdot, if_pos (by rcases hm with h | h <;> subst h <;> simp)]
    rw [if_neg (by decide)]
    rw [parseNumLoop_digits d2 hd2]
    rw [parseNumLoop]
    rw [if_neg hc2, if_neg (by simp [hc3, hc4]), if_neg (by simp [hc1])]
    rw [if_neg (by decide)]
  have hI : ∀ acc0, parseI128 (((acc0 ++ d1) ++ [mark]) ++ d2) = none := by
    intro acc0
    have hmem : mark ∈ ((acc0 ++ d1) ++ [mark]) ++ d2 := by simp
    rw [parseI128.eq_def]
    split
    next rest2 heq =>
      have hm2 : mark ∈ '-' :: rest2 := by rw [← heq]; exact hmem
      rcases List.mem_cons.1 hm2 with h | h
      · rcases hm with he | he <;> simp [he] at h
      · rw [decDigitsVal_none _ _ h hmd]
        rfl
    next rest2 heq =>
      have hm2 : mark ∈ '+' :: rest2 := by rw [← heq]; exact hmem
      rcases List.mem_cons.1 hm2 with h | h
      · rcases hm with he | he <;> simp [he] at h
      · rw [decDigitsVal_none _ _ h hmd]
        rfl
    next =>
      rw [decDigitsVal_none _ _ hmem hmd]
      rfl
  refine ⟨?_, ?_, rfl⟩
  · obtain ⟨y, d1t, rfl⟩ : ∃ y t, d1 = y :: t := by
      cases d1 with
      | nil => exact absurd rfl h1
      | cons y t => exact ⟨y, t, rfl⟩
    have hy : isDigit y = true := hd1 y (List.mem_cons_self y d1t)
    have hyneg : y ≠ '-' := by intro h; subst h; simp [isDigit] at hy
    have hgoal : parseNumber ((y :: d1t) ++ ((mark :: d2) ++ (c :: rest))) = .panic := by
      rw [List.cons_append]
      rw [parseNumber]
      rw [if_neg hyneg]
      rw [← List.cons_append]
      rw [hloop []]
      rw [hI []]
    have : (y :: d1t) ++ mark :: d2 ++ c :: rest
        = (y :: d1t) ++ ((mark :: d2) ++ (c :: rest)) := by
      simp [List.append_assoc]
    rw [this]
    exact hgoal
  · have hgoal : parseNumber ('-' :: (d1 ++ ((mark :: d2) ++ (c :: rest)))) = .panic := by
      rw [parseNumber]
      rw [if_pos rfl]
      rw [hloop ['-']]
      rw [hI ['-']]
    have heq2 : d1 ++ mark :: d2 ++ c :: rest
        = d1 ++ ((mark :: d2) ++ (c :: rest)) := by
      simp [List.append_assoc]
    rw [heq2]
    exact hgoal

/-- Witness for C4 at the literal `1e3` followed by a closing brace. -/
theorem C4_exponent_without_dot_fatal_witness :
    parseNumber ['1', 'e', '3', '\x7d'] = .panic :=
  (C4_exponent_without_dot_fatal ['1'] ['3'] [] 'e' '\x7d' (by decide)
    (by decide) (by decide) (Or.inl rfl) (by decide) (by decide) (by decide)
    (by decide)).1

/-- A non-whitespace head makes `skipWs` a no-op. -/
theorem skipWs_not_ws (c : Char) (t : List Char) (h : isWs c = false) :
    skipWs (c :: t) = c :: t := by
  rw [skipWs, h]
  simp

/-- `replaceAll` distributes over append. -/
theorem replaceAll_append (p : Char) (r a b : List Char) :
    replaceAll p r (a ++ b) = replaceAll p r a ++ replaceAll p r b := by
  induction a with
  | nil => rfl
  | cons c rest ih =>
    show replaceAll p r (c :: (rest ++ b)) = _
    rw [replaceAll, ih, replaceAll]
    simp

/-- One step of the two-pass escape. -/
theorem escapeStr_cons (c : Char) (s : List Char) :
    escapeStr (c :: s)
      = (if c = '\\' then ['\\', '\\'] else if c = '"' then ['\\', '"'] else [c])
        ++ escapeStr s := by
  unfold escapeStr
  rw [replaceAll]
  by_cases h1 : c = '\\'
  · subst h1
    rw [if_pos rfl, replaceAll_append]
    rfl
  · rw [if_neg h1, replaceAll_append]
    by_cases h2 : c = '"'
    · subst h2
      rfl
    · simp only [if_neg h1, if_neg h2]
      show replaceAll '"' ['\\', '"'] [c] ++ _ = [c] ++ _
      rw [replaceAll]
      rw [if_neg h2]
      rfl

/-- The string loop undoes the serializer's escaping. -/
theorem parseStringLoop_escape (s : List Char) :
    ∀ acc rest, parseStringLoop acc false (escapeStr s ++ ('"' :: rest))
      = .ok (.string (acc ++ s), rest) := by
  induction s with
  | nil =>
    intro acc rest
    show parseStringLoop acc false ('"' :: rest) = _
    simp [parseStringLoop]
  | cons c s ih =>
    intro acc rest
    rw [escapeStr_cons]
    by_cases h1 : c = '\\'
    · subst h1
      rw [if_pos rfl]
      show parseStringLoop acc false ('\\' :: '\\' :: (escapeStr s ++ ('"' :: rest))) = _
      have h3 : parseStringLoop acc false ('\\' :: '\\' :: (escapeStr s ++ ('"' :: rest)))
          = parseStringLoop acc true ('\\' :: (escapeStr s ++ ('"' :: rest))) := by
        rw [parseStringLoop]
        simp
      have h4 : parseStringLoop acc true ('\\' :: (escapeStr s ++ ('"' :: rest)))
          = parseStringLoop (acc ++ ['\\']) false (escapeStr s ++ ('"' :: rest)) := by
        rw [parseStringLoop]
        simp
      rw [h3, h4, ih]
      simp
    · rw [if_neg h1]
      by_cases h2 : c = '"'
      · subst h2
        rw [if_pos rfl]
        show parseStringLoop acc false ('\\' :: '"' :: (escapeStr s ++ ('"' :: rest))) = _
        have h3 : parseStringLoop acc false ('\\' :: '"' :: (escapeStr s ++ ('"' :: rest)))
            = parseStringLoop acc true ('"' :: (escapeStr s ++ ('"' :: rest))) := by
          rw [parseStringLoop]
          simp
        have h4 : parseStringLoop acc true ('"' :: (escapeStr s ++ ('"' :: rest)))
            = parseStringLoop (acc ++ ['"']) false (escapeStr s ++ ('"' :: rest)) := by
          rw [parseStringLoop]
          simp
        rw [h3, h4, ih]
        simp
      · rw [if_neg h2]
        show parseStringLoop acc false (c :: (escapeStr s ++ ('"' :: rest))) = _
        rw [parseStringLoop, if_neg h1, if_neg h2, ih]
        simp

/-- `parse_string` recovers any string from its display form. -/
theorem parseString_disp (s rest : List Char) :
    parseString (dispString s ++ rest) = .ok (.string s, rest) := by
  show parseString ('"' :: (escapeStr s ++ ['"'] ++ rest)) = _
  rw [parseString]
  rw [List.append_assoc]
  show parseStringLoop [] false (escapeStr s ++ ('"' :: rest)) = _
  rw [parseStringLoop_escape]
  simp

/-- Literal value of the smallest `i128`. -/
theorem i128Min_eq : i128Min = -170141183460469231731687303715884105728 := by
  norm_num [i128Min]

/-- Literal value of the largest `i128`. -/
theorem i128Max_eq : i128Max = 170141183460469231731687303715884105727 := by
  norm_num [i128Max]

/-- Fuel above `n` is irrelevant for `natDigsAux`. -/
theorem natDigsAux_eq (n : Nat) : ∀ f, n < f → natDigsAux f n = natDigs n := by
  induction n using Nat.strong_induction_on with
  | _ n ih =>
    intro f hf
    match f, hf with
    | f+1, hf =>
      rw [natDigsAux]
      unfold natDigs
      rw [natDigsAux]
      by_cases h : n < 10
      · rw [if_pos h, if_pos h]
      · rw [if_neg h, if_neg h]
        have hd : n / 10 < n := Nat.div_lt_self (by omega) (by omega)
        rw [ih (n / 10) hd f (by omega), ih (n / 10) hd n hd]

/-- One-step unfolding of `natDigs`. -/
theorem natDigs_unfold (n : Nat) :
    natDigs n = if n < 10 then [Char.ofNat (48 + n)]
      else natDigs (n / 10) ++ [Char.ofNat (48 + n % 10)] := by
  show natDigsAux (n + 1) n = _
  rw [natDigsAux]
  by_cases h : n < 10
  · rw [if_pos h, if_pos h]
  · rw [if_neg h, if_neg h]
    rw [natDigsAux_eq (n / 10) n (Nat.div_lt_self (by omega) (by omega))]

/-- The character of a decimal digit is a digit and decodes back. -/
theorem digitChar_facts (d : Nat) (h : d < 10) :
    isDigit (Char.ofNat (48 + d)) = true ∧ (Char.ofNat (48 + d)).toNat - 48 = d := by
  interval_cases d <;> exact ⟨rfl, rfl⟩

/-- Every character of a decimal representation is a digit. -/
theorem natDigs_all_digits (n : Nat) : ∀ x ∈ natDigs n, isDigit x = true := by
  induction n using Nat.strong_induction_on with
  | _ n ih =>
    intro x hx
    rw [natDigs_unfold] at hx
    by_cases h : n < 10
    · rw [if_pos h] at hx
      rcases List.mem_singleton.1 hx with rfl
      exact (digitChar_facts n h).1
    · rw [if_neg h] at hx
      rcases List.mem_append.1 hx with h2 | h2
      · exact ih (n / 10) (Nat.div_lt_self (by omega) (by omega)) x h2
      · rcases List.mem_singleton.1 h2 with rfl
        exact (digitChar_facts (n % 10) (Nat.mod_lt n (by omega))).1

/-- A decimal representation is nonempty. -/
theorem natDigs_ne_nil (n : Nat) : natDigs n ≠ [] := by
  rw [natDigs_unfold]
  by_cases h : n < 10
  · rw [if_pos h]; simp
  · rw [if_neg h]; simp

/-- Decimal re-interpretation fold. -/
def valFold (a : Nat) (ds : List Char) : Nat :=
  ds.foldl (fun n c => 10 * n + (c.toNat - 48)) a

/-- Decimal digits decode to their number. -/
theorem valFold_natDigs (n : Nat) :
    ∀ a, valFold a (natDigs n) = a * 10 ^ (natDigs n).length + n := by
  induction n using Nat.strong_induction_on with
  | _ n ih =>
    intro a
    conv_lhs => rw [natDigs_unfold]
    by_cases h : n < 10
    · rw [if_pos h]
      show 10 * a + ((Char.ofNat (48 + n)).toNat - 48) = _
      rw [(digitChar_facts n h).2, natDigs_unfold, if_pos h]
      simp
      ring
    · rw [if_neg h]
      unfold valFold
      rw [List.foldl_append]
      have hd : n / 10 < n := Nat.div_lt_self (by omega) (by omega)
      have := ih (n / 10) hd a
      unfold valFold at this
      rw [this]
      show 10 * (a * 10 ^ (natDigs (n / 10)).length + n / 10)
          + ((Char.ofNat (48 + n % 10)).toNat - 48) = _
      rw [(digitChar_facts (n % 10) (Nat.mod_lt n (by omega))).2]
      have hlen : (natDigs n).length = (natDigs (n / 10)).length + 1 := by
        conv_lhs => rw [natDigs_unfold, if_neg h]
        simp
      rw [hlen]
      have : 10 * (n / 10) + n % 10 = n := Nat.div_add_mod n 10
      ring_nf
      omega

/-- On an all-digit run, `decDigitsVal` is the decimal fold. -/
theorem decDigitsVal_digits (ds : List Char) (h : ds ≠ [])
    (hd : ∀ x ∈ ds, isDigit x = true) :
    decDigitsVal ds = some (valFold 0 ds) := by
  have main : ∀ (l : List Char) (a : Nat), (∀ x ∈ l, isDigit x = true) →
      l.foldl (fun acc c =>
        acc.bind (fun n => if isDigit c then some (10 * n + (c.toNat - 48)) else none))
        (some a) = some (valFold a l) := by
    intro l
    induction l with
    | nil => intro a _; rfl
    | cons c t ih =>
      intro a hl
      have hc : isDigit c = true := hl c (List.mem_cons_self c t)
      show List.foldl _ ((some a).bind fun n =>
        if isDigit c then some (10 * n + (c.toNat - 48)) else none) t = _
      rw [show ((some a).bind fun n =>
        if isDigit c then some (10 * n + (c.toNat - 48)) else none)
          = some (10 * a + (c.toNat - 48)) by simp [hc]]
      rw [ih _ (fun x hx => hl x (List.mem_cons_of_mem c hx))]
      rfl
  match ds, h with
  | c :: t, _ =>
    show (c :: t).foldl _ (some 0) = _
    exact main (c :: t) 0 hd

/-- Decimal digits of `n` re-parse to `n`. -/
theorem decDigitsVal_natDigs (n : Nat) : decDigitsVal (natDigs n) = some n := by
  rw [decDigitsVal_digits (natDigs n) (natDigs_ne_nil n) (natDigs_all_digits n)]
  rw [valFold_natDigs n 0]
  simp

/-- `parseI128` accepts an unsigned in-range decimal representation. -/
theorem parseI128_natDigs (n : Nat) (h : (n : Int) ≤ i128Max) :
    parseI128 (natDigs n) = some ((n : Int)) := by
  obtain ⟨c, t, hct⟩ : ∃ c t, natDigs n = c :: t := by
    cases hh : natDigs n with
    | nil => exact absurd hh (natDigs_ne_nil n)
    | cons c t => exact ⟨c, t, rfl⟩
  have hcd : isDigit c = true := natDigs_all_digits n c (by rw [hct]; simp)
  rw [hct]
  rw [parseI128.eq_def]
  split
  next rest2 heq =>
    rw [List.cons_eq_cons] at heq
    obtain ⟨heq1, _⟩ := heq
    subst heq1
    simp [isDigit] at hcd
  next rest2 heq =>
    rw [List.cons_eq_cons] at heq
    obtain ⟨heq1, _⟩ := heq
    subst heq1
    simp [isDigit] at hcd
  next =>
    rw [← hct, decDigitsVal_natDigs]
    simp [h]

/-- `parseI128` accepts a negative in-range decimal representation. -/
theorem parseI128_neg_natDigs (n : Nat) (h : (n : Int) ≤ -i128Min) :
    parseI128 ('-' :: natDigs n) = some (-(n : Int)) := by
  show (decDigitsVal (natDigs n)).bind _ = _
  rw [decDigitsVal_natDigs]
  simp [h]

/-- `parse_number` recovers any in-range integer from its display form,
stopping at the first non-numeric character, which is not consumed. -/
theorem parseNumber_intDisp (i : Int) (hmin : i128Min ≤ i) (hmax : i ≤ i128Max)
    (c : Char) (rest : List Char)
    (hc : isDigit c = false) (h2 : c ≠ '.') (h3 : c ≠ 'e') (h4 : c ≠ 'E') :
    parseNumber (intDisp i ++ (c :: rest)) = .ok (.number (.integer i), c :: rest) := by
  have hstop : ∀ acc, parseNumLoop acc false false (c :: rest)
      = (match parseI128 acc with
         | some j => .ok (.number (.integer j), c :: rest)
         | none => .panic) := by
    intro acc
    rw [parseNumLoop]
    rw [if_neg h2, if_neg (by simp [h3, h4]), if_neg (by simp [hc]), if_neg (by decide)]
  by_cases hneg : i < 0
  · rw [intDisp, if_pos hneg]
    show parseNumber ('-' :: (natDigs i.natAbs ++ (c :: rest))) = _
    rw [parseNumber]
    rw [if_pos rfl]
    rw [parseNumLoop_digits (natDigs i.natAbs) (natDigs_all_digits _)]
    rw [show (['-'] ++ natDigs i.natAbs) = '-' :: natDigs i.natAbs from rfl]
    rw [hstop]
    rw [parseI128_neg_natDigs i.natAbs (by rw [i128Min_eq] at hmin ⊢; omega)]
    have : -((i.natAbs : Int)) = i := by omega
    rw [this]
  · rw [intDisp, if_neg hneg]
    obtain ⟨c0, t0, hct⟩ : ∃ c0 t0, natDigs i.natAbs = c0 :: t0 := by
      cases hh : natDigs i.natAbs with
      | nil => exact absurd hh (natDigs_ne_nil _)
      | cons c0 t0 => exact ⟨c0, t0, rfl⟩
    have hcd : isDigit c0 = true := natDigs_all_digits _ c0 (by rw [hct]; simp)
    rw [hct]
    show parseNumber (c0 :: (t0 ++ (c :: rest))) = _
    rw [parseNumber]
    rw [if_neg (by intro hh; subst hh; simp [isDigit] at hcd)]
    rw [show c0 :: (t0 ++ (c :: rest)) = (c0 :: t0) ++ (c :: rest) from rfl]
    rw [← hct]
    rw [parseNumLoop_digits (natDigs i.natAbs) (natDigs_all_digits _)]
    rw [show ([] ++ natDigs i.natAbs) = natDigs i.natAbs from by simp]
    rw [hstop]
    rw [parseI128_natDigs i.natAbs (by rw [i128Max_eq] at hmax ⊢; omega)]
    have : ((i.natAbs : Int)) = i := by omega
    rw [this]

/-- `parse_boolean` recovers `true` when the next character leaves the
boolean alphabet. -/
theorem parseBoolean_true (c : Char) (rest : List Char) (hc : isBoolChar c = false) :
    parseBoolean ("true".toList ++ (c :: rest)) = .ok (.boolean true, c :: rest) := by
  show parseBoolLoop [] ('t' :: 'r' :: 'u' :: 'e' :: (c :: rest)) = _
  rw [parseBoolLoop, if_pos (by decide)]
  rw [parseBoolLoop, if_pos (by decide)]
  rw [parseBoolLoop, if_pos (by decide)]
  rw [parseBoolLoop, if_pos (by decide)]
  rw [parseBoolLoop, if_neg (by simp [hc]), if_pos (by decide)]

/-- `parse_boolean` recovers `false` when the next character leaves the
boolean alphabet. -/
theorem parseBoolean_false (c : Char) (rest : List Char) (hc : isBoolChar c = false) :
    parseBoolean ("false".toList ++ (c :: rest)) = .ok (.boolean false, c :: rest) := by
  show parseBoolLoop [] ('f' :: 'a' :: 'l' :: 's' :: 'e' :: (c :: rest)) = _
  rw [parseBoolLoop, if_pos (by decide)]
  rw [parseBoolLoop, if_pos (by decide)]
  rw [parseBoolLoop, if_pos (by decide)]
  rw [parseBoolLoop, if_pos (by decide)]
  rw [parseBoolLoop, if_pos (by decide)]
  rw [parseBoolLoop, if_neg (by simp [hc]), if_neg (by decide), if_pos (by decide)]

/-- `parse_null` recovers `null` when the next character leaves the null
alphabet. -/
theorem parseNull_disp (c : Char) (rest : List Char) (hc : isNullChar c = false) :
    parseNull ("null".toList ++ (c :: rest)) = .ok (.null, c :: rest) := by
  show parseNullLoop [] ('n' :: 'u' :: 'l' :: 'l' :: (c :: rest)) = _
  rw [parseNullLoop, if_pos (by decide)]
  rw [parseNullLoop, if_pos (by decide)]
  rw [parseNullLoop, if_pos (by decide)]
  rw [parseNullLoop, if_pos (by decide)]
  rw [parseNullLoop, if_neg (by simp [hc]), if_pos (by decide)]

/-- A leading whitespace character does not change a `value` step. -/
theorem pstep_value_ws (f : Nat) (c : Char) (x : List Char) (h : isWs c = true) :
    pstep (f+1) (.value (c :: x)) = pstep (f+1) (.value x) := by
  rw [pstep_value, pstep_value]
  rw [show skipWs (c :: x) = skipWs x from by rw [skipWs, h]; simp]

/-- A leading space does not change an array-loop step. -/
theorem pstep_arr_ws (f : Nat) (acc : List JsonDtype) (c : Char) (x : List Char)
    (h : isWs c = true) :
    pstep (f+1) (.arrLoop acc (c :: x)) = pstep (f+1) (.arrLoop acc x) := by
  rw [pstep_arr, pstep_arr]
  have hsk : skipWs (c :: x) = skipWs x := by rw [skipWs, h]; simp
  cases x with
  | nil =>
    simp only [hsk]
    rfl
  | cons y t =>
    simp only [hsk]

/-- A leading space does not change an object-loop step. -/
theorem pstep_obj_ws (f : Nat) (acc : Json) (c : Char) (x : List Char)
    (h : isWs c = true) :
    pstep (f+1) (.objLoop acc (c :: x)) = pstep (f+1) (.objLoop acc x) := by
  rw [pstep_obj, pstep_obj]
  have hsk : skipWs (c :: x) = skipWs x := by rw [skipWs, h]; simp
  cases x with
  | nil =>
    simp only [hsk]
    rfl
  | cons y t =>
    simp only [hsk]

/-- Elements of an array bound the array size. -/
theorem sizeD_mem_arr (a : List JsonDtype) (v : JsonDtype) (h : v ∈ a) :
    sizeD v ≤ sizeA a := by
  induction a with
  | nil => cases h
  | cons x t ih =>
    rcases List.mem_cons.1 h with rfl | h2
    · rw [sizeA]; omega
    · have := ih h2
      rw [sizeA]
      omega

/-- Entries of an object bound the object size. -/
theorem sizeD_mem_obj (m : List (JsonDtype × JsonDtype)) (kv : JsonDtype × JsonDtype)
    (h : kv ∈ m) : sizeD kv.1 ≤ sizeM m ∧ sizeD kv.2 ≤ sizeM m := by
  induction m with
  | nil => cases h
  | cons x t ih =>
    obtain ⟨k2, v2⟩ := x
    rcases List.mem_cons.1 h with rfl | h2
    · dsimp only
      rw [sizeM]
      omega
    · have := ih h2
      rw [sizeM]
      omega

/-- Good arrays have good elements. -/
theorem goodA_mem (a : List JsonDtype) (h : goodA a = true) :
    ∀ v ∈ a, goodD v = true := by
  induction a with
  | nil => intro v hv; cases hv
  | cons x t ih =>
    rw [goodA] at h
    simp only [Bool.and_eq_true] at h
    intro v hv
    rcases List.mem_cons.1 hv with rfl | h2
    · exact h.1
    · exact ih h.2 v h2

/-- Good objects have string keys and good values. -/
theorem goodM_mem (m : List (JsonDtype × JsonDtype)) (h : goodM m = true) :
    ∀ kv ∈ m, (∃ s, kv.1 = .string s) ∧ goodD kv.2 = true := by
  induction m with
  | nil => intro kv hkv; cases hkv
  | cons x t ih =>
    obtain ⟨k2, v2⟩ := x
    rw [goodM] at h
    simp only [Bool.and_eq_true] at h
    obtain ⟨⟨h1, h2⟩, h3⟩ := h
    intro kv hkv
    rcases List.mem_cons.1 hkv with rfl | hm
    · refine ⟨?_, h2⟩
      dsimp only
      revert h1
      cases k2 <;> simp [isStringKey]
    · exact ih h3 kv hm

/-- Inserting a key not `==`-related to any stored key appends the entry. -/
theorem insertJ_fresh (m : Json) (k v : JsonDtype)
    (h : ∀ kv ∈ m, k.beq kv.1 = false) :
    Json.insertJ m k v = m ++ [(k, v)] := by
  induction m with
  | nil => rfl
  | cons x t ih =>
    obtain ⟨k2, v2⟩ := x
    rw [Json.insertJ]
    rw [h (k2, v2) (List.mem_cons_self _ _)]
    simp only [Bool.false_eq_true, if_false]
    rw [ih (fun kv hkv => h kv (List.mem_cons_of_mem _ hkv))]
    rfl

/-- Key equality of string values is string equality. -/
theorem beq_string (a b : List Char) :
    JsonDtype.beq (.string a) (.string b) = (a == b) := rfl

/-- `keyStrs` distributes over append. -/
theorem keyStrs_append (a b : Json) : keyStrs (a ++ b) = keyStrs a ++ keyStrs b := by
  induction a with
  | nil => rfl
  | cons x t ih =>
    obtain ⟨k2, v2⟩ := x
    show keyStrs ((k2, v2) :: (t ++ b)) = _
    rw [keyStrs, ih, keyStrs]
    rfl

/-- Unfolding `noDupStr` into membership facts. -/
theorem noDupStr_cons (x : List Char) (t : List (List Char)) :
    noDupStr (x :: t) = true ↔ (x ∉ t ∧ noDupStr t = true) := by
  rw [noDupStr]
  simp only [Bool.and_eq_true, Bool.not_eq_true']
  constructor
  · rintro ⟨h1, h2⟩
    refine ⟨?_, h2⟩
    intro hm
    rw [List.contains_eq_any_beq] at h1
    have : t.any (x == ·) = true := by
      rw [List.any_eq_true]
      exact ⟨x, hm, by simp⟩
    rw [this] at h1
    cases h1
  · rintro ⟨h1, h2⟩
    refine ⟨?_, h2⟩
    rw [List.contains_eq_any_beq]
    rw [Bool.eq_false_iff]
    intro hany
    rw [List.any_eq_true] at hany
    obtain ⟨y, hy, hxy⟩ := hany
    rw [beq_iff_eq] at hxy
    exact h1 (hxy ▸ hy)

/-- In a duplicate-free list, an element after the split point differs from
everything before it. -/
theorem noDupStr_split (xs : List (List Char)) :
    ∀ y ys, noDupStr (xs ++ y :: ys) = true → y ∉ xs := by
  induction xs with
  | nil => intro y ys _ h; cases h
  | cons x t ih =>
    intro y ys h hy
    rw [show (x :: t) ++ y :: ys = x :: (t ++ y :: ys) from rfl, noDupStr_cons] at h
    obtain ⟨h1, h2⟩ := h
    rcases List.mem_cons.1 hy with rfl | hm
    · exact h1 (by simp)
    · exact ih y ys h2 hm

/-- Duplicate-freedom survives dropping the split element. -/
theorem noDupStr_tail (xs : List (List Char)) :
    ∀ y ys, noDupStr (xs ++ y :: ys) = true → noDupStr (xs ++ ys) = true := by
  induction xs with
  | nil =>
    intro y ys h
    rw [List.nil_append] at h ⊢
    rw [noDupStr_cons] at h
    exact h.2
  | cons x t ih =>
    intro y ys h
    rw [show (x :: t) ++ y :: ys = x :: (t ++ y :: ys) from rfl, noDupStr_cons] at h
    obtain ⟨h1, h2⟩ := h
    rw [show (x :: t) ++ ys = x :: (t ++ ys) from rfl, noDupStr_cons]
    refine ⟨?_, ih y ys h2⟩
    intro hmem
    rcases List.mem_append.1 hmem with hm | hm
    · exact h1 (List.mem_append.2 (Or.inl hm))
    · exact h1 (List.mem_append.2 (Or.inr (List.mem_cons_of_mem y hm)))

/-- Display of a string value. -/
theorem dispD_string (s : List Char) : dispD (.string s) = dispString s := rfl

/-- Display of an integer value. -/
theorem dispD_int (i : Int) : dispD (.number (.integer i)) = intDisp i := rfl

/-- Display of an object value. -/
theorem dispD_obj (m : Json) : dispD (.object m) = '\x7b' :: dispM m ++ ['\x7d'] := rfl

/-- Display of an array value. -/
theorem dispD_arr (a : List JsonDtype) : dispD (.array a) = '[' :: dispA a ++ [']'] := rfl

/-- Display of a boolean value. -/
theorem dispD_bool (b : Bool) :
    dispD (.boolean b) = (if b then "true".toList else "false".toList) := rfl

/-- Display of null. -/
theorem dispD_null : dispD .null = "null".toList := rfl

/-- Goodness of an integer value. -/
theorem goodD_int (i : Int) :
    goodD (.number (.integer i)) = (decide (i128Min ≤ i) && decide (i ≤ i128Max)) := rfl

/-- Goodness of a float value. -/
theorem goodD_float (lit : List Char) : goodD (.number (.float lit)) = false := rfl

/-- Goodness of an object value. -/
theorem goodD_obj (m : Json) :
    goodD (.object m) = (goodM m && noDupStr (keyStrs m)) := rfl

/-- Goodness of an array value. -/
theorem goodD_arr (a : List JsonDtype) : goodD (.array a) = goodA a := rfl

/-- A digit character is none of the parser's special characters. -/
theorem isDigit_no_special (c : Char) (h : isDigit c = true) :
    isWs c = false ∧ c ≠ ']' ∧ c ≠ ',' ∧ c ≠ '\x7d' ∧ c ≠ ':' ∧ c ≠ '"' ∧ c ≠ '-' := by
  have h2 : '0' ≤ c ∧ c ≤ '9' := by
    rw [isDigit] at h
    simp only [Bool.and_eq_true, decide_eq_true_eq] at h
    exact h
  obtain ⟨hl, hr⟩ := h2
  refine ⟨?_, ?_, ?_, ?_, ?_, ?_, ?_⟩
  · rw [isWs]
    have w1 : c ≠ ' ' := fun he => by subst he; exact absurd hl (by decide)
    have w2 : c ≠ '\n' := fun he => by subst he; exact absurd hl (by decide)
    have w3 : c ≠ '\t' := fun he => by subst he; exact absurd hl (by decide)
    simp [w1, w2, w3]
  · exact fun he => by subst he; exact absurd hr (by decide)
  · exact fun he => by subst he; exact absurd hl (by decide)
  · exact fun he => by subst he; exact absurd hr (by decide)
  · exact fun he => by subst he; exact absurd hr (by decide)
  · exact fun he => by subst he; exact absurd hl (by decide)
  · exact fun he => by subst he; exact absurd hl (by decide)

/-- The three characters that may legally follow a number, boolean or null
in serialized output are inert for all leaf parsers. -/
theorem stopChar_facts (c : Char) (h : c = ',' ∨ c = '\x7d' ∨ c = ']') :
    isDigit c = false ∧ c ≠ '.' ∧ c ≠ 'e' ∧ c ≠ 'E'
      ∧ isBoolChar c = false ∧ isNullChar c = false := by
  rcases h with rfl | rfl | rfl <;> exact ⟨rfl, by decide, by decide, by decide, rfl, rfl⟩

/-- Characters that may follow a serialized value so that the value parser
stops exactly at the end of the value: numbers, booleans and null require a
structural delimiter next, every other variant is self-delimiting. -/
def stopOk (v : JsonDtype) (rest : List Char) : Prop :=
  match v with
  | .number _ => ∃ c r, rest = c :: r ∧ (c = ',' ∨ c = '\x7d' ∨ c = ']')
  | .boolean _ => ∃ c r, rest = c :: r ∧ (c = ',' ∨ c = '\x7d' ∨ c = ']')
  | .null => ∃ c r, rest = c :: r ∧ (c = ',' ∨ c = '\x7d' ∨ c = ']')
  | _ => True

/-- The tail of a serialized array provides a stop character. -/
theorem stopOk_arr_tail (v : JsonDtype) (vs : List JsonDtype) (rest : List Char) :
    stopOk v (dispAT vs ++ (']' :: rest)) := by
  have key : ∃ c r, dispAT vs ++ (']' :: rest) = c :: r ∧ (c = ',' ∨ c = '\x7d' ∨ c = ']') := by
    cases vs with
    | nil => exact ⟨']', rest, rfl, Or.inr (Or.inr rfl)⟩
    | cons w ws =>
      refine ⟨',', ' ' :: dispD w ++ dispAT ws ++ (']' :: rest), ?_, Or.inl rfl⟩
      rw [dispAT]
      simp
  cases v <;> first | exact key | trivial

/-- The tail of a serialized object provides a stop character. -/
theorem stopOk_obj_tail (v : JsonDtype) (es : Json) (rest : List Char) :
    stopOk v (dispMT es ++ ('\x7d' :: rest)) := by
  have key : ∃ c r, dispMT es ++ ('\x7d' :: rest) = c :: r
      ∧ (c = ',' ∨ c = '\x7d' ∨ c = ']') := by
    cases es with
    | nil => exact ⟨'\x7d', rest, rfl, Or.inr (Or.inl rfl)⟩
    | cons e es2 =>
      obtain ⟨k, w⟩ := e
      refine ⟨',', ' ' :: dispD k ++ ':' :: ' ' :: dispD w ++ dispMT es2
        ++ ('\x7d' :: rest), ?_, Or.inl rfl⟩
      rw [dispMT]
      simp
  cases v <;> first | exact key | trivial

/-- Value dispatch when the head character is not whitespace. -/
theorem pstep_value_nows (f : Nat) (c0 : Char) (t0 : List Char) (hws : isWs c0 = false) :
    pstep (f+1) (.value (c0 :: t0)) =
      (if c0 = '"' then parseString (c0 :: t0)
       else if isDigit c0 || c0 = '-' then parseNumber (c0 :: t0)
       else if c0 = 't' || c0 = 'f' then parseBoolean (c0 :: t0)
       else if c0 = 'n' then parseNull (c0 :: t0)
       else if c0 = '[' then pstep f (.arrLoop [] t0)
       else if c0 = '\x7b' then pstep f (.objLoop [] t0)
       else .panic) := by
  rw [pstep_value, skipWs_not_ws c0 t0 hws]

/-- A displayed string value parses back. -/
theorem pstep_value_string (f : Nat) (s rest : List Char) :
    pstep (f+1) (.value (dispD (.string s) ++ rest)) = .ok (.string s, rest) := by
  have hd : dispD (.string s) ++ rest = '"' :: (escapeStr s ++ ('"' :: rest)) := by
    rw [dispD_string]
    show ('"' :: escapeStr s ++ ['"']) ++ rest = _
    simp
  rw [hd, pstep_value_nows f '"' _ (by decide), if_pos rfl]
  have hd2 : dispString s ++ rest = '"' :: (escapeStr s ++ ('"' :: rest)) := by
    rw [dispString]
    show ('"' :: escapeStr s ++ ['"']) ++ rest = _
    simp
  rw [← hd2]
  exact parseString_disp s rest

/-- A displayed in-range integer value parses back before a delimiter. -/
theorem pstep_value_int (f : Nat) (i : Int) (hmin : i128Min ≤ i) (hmax : i ≤ i128Max)
    (c : Char) (rest : List Char) (hc : c = ',' ∨ c = '\x7d' ∨ c = ']') :
    pstep (f+1) (.value (dispD (.number (.integer i)) ++ (c :: rest)))
      = .ok (.number (.integer i), c :: rest) := by
  obtain ⟨hc1, hc2, hc3, hc4, _, _⟩ := stopChar_facts c hc
  rw [dispD_int]
  by_cases hneg : i < 0
  · have hd : intDisp i ++ (c :: rest)
        = '-' :: (natDigs i.natAbs ++ (c :: rest)) := by
      rw [intDisp, if_pos hneg]
      simp
    rw [hd, pstep_value_nows f '-' _ (by decide)]
    rw [if_neg (by decide), if_pos (by simp)]
    rw [← hd]
    exact parseNumber_intDisp i hmin hmax c rest hc1 hc2 hc3 hc4
  · obtain ⟨c0, t0, hct⟩ : ∃ c0 t0, natDigs i.natAbs = c0 :: t0 := by
      cases hh : natDigs i.natAbs with
      | nil => exact absurd hh (natDigs_ne_nil _)
      | cons c0 t0 => exact ⟨c0, t0, rfl⟩
    have hcd : isDigit c0 = true := natDigs_all_digits _ c0 (by rw [hct]; simp)
    obtain ⟨hw, _, _, _, _, hnq, _⟩ := isDigit_no_special c0 hcd
    have hd : intDisp i ++ (c :: rest) = c0 :: (t0 ++ (c :: rest)) := by
      rw [intDisp, if_neg hneg, hct]
      simp
    rw [hd, pstep_value_nows f c0 _ hw]
    rw [if_neg hnq, if_pos (by simp [hcd])]
    rw [← hd]
    exact parseNumber_intDisp i hmin hmax c rest hc1 hc2 hc3 hc4

/-- A displayed boolean value parses back before a delimiter. -/
theorem pstep_value_bool (f : Nat) (b : Bool)
    (c : Char) (rest : List Char) (hc : c = ',' ∨ c = '\x7d' ∨ c = ']') :
    pstep (f+1) (.value (dispD (.boolean b) ++ (c :: rest)))
      = .ok (.boolean b, c :: rest) := by
  obtain ⟨_, _, _, _, hb, _⟩ := stopChar_facts c hc
  cases b
  · have hd : dispD (.boolean false) ++ (c :: rest)
        = 'f' :: ("alse".toList ++ (c :: rest)) := by
      rw [dispD_bool]
      simp
    rw [hd, pstep_value_nows f 'f' _ (by decide)]
    rw [if_neg (by decide), if_neg (by decide), if_pos (by simp)]
    rw [show 'f' :: ("alse".toList ++ (c :: rest))
        = "false".toList ++ (c :: rest) from rfl]
    exact parseBoolean_false c rest hb
  · have hd : dispD (.boolean true) ++ (c :: rest)
        = 't' :: ("rue".toList ++ (c :: rest)) := by
      rw [dispD_bool]
      simp
    rw [hd, pstep_value_nows f 't' _ (by decide)]
    rw [if_neg (by decide), if_neg (by decide), if_pos (by simp)]
    rw [show 't' :: ("rue".toList ++ (c :: rest))
        = "true".toList ++ (c :: rest) from rfl]
    exact parseBoolean_true c rest hb

/-- A displayed null parses back before a delimiter. -/
theorem pstep_value_null (f : Nat)
    (c : Char) (rest : List Char) (hc : c = ',' ∨ c = '\x7d' ∨ c = ']') :
    pstep (f+1) (.value (dispD .null ++ (c :: rest))) = .ok (.null, c :: rest) := by
  obtain ⟨_, _, _, _, _, hn⟩ := stopChar_facts c hc
  have hd : dispD .null ++ (c :: rest) = 'n' :: ("ull".toList ++ (c :: rest)) := by
    rw [dispD_null]
    simp
  rw [hd, pstep_value_nows f 'n' _ (by decide)]
  rw [if_neg (by decide), if_neg (by decide), if_neg (by decide), if_pos rfl]
  rw [show 'n' :: ("ull".toList ++ (c :: rest)) = "null".toList ++ (c :: rest) from rfl]
  exact parseNull_disp c rest hn

/-- The display of a good value starts with a non-whitespace, non-delimiter
character. -/
theorem disp_head (v : JsonDtype) (hg : goodD v = true) :
    ∃ c t, dispD v = c :: t ∧ isWs c = false ∧ c ≠ ']' ∧ c ≠ ',' ∧ c ≠ '\x7d' := by
  cases v with
  | string s =>
    exact ⟨'"', escapeStr s ++ ['"'], rfl, by decide, by decide, by decide, by decide⟩
  | number n =>
    cases n with
    | integer i =>
      by_cases hneg : i < 0
      · refine ⟨'-', natDigs i.natAbs, ?_, by decide, by decide, by decide, by decide⟩
        rw [dispD_int, intDisp, if_pos hneg]
      · obtain ⟨c0, t0, hct⟩ : ∃ c0 t0, natDigs i.natAbs = c0 :: t0 := by
          cases hh : natDigs i.natAbs with
          | nil => exact absurd hh (natDigs_ne_nil _)
          | cons c0 t0 => exact ⟨c0, t0, rfl⟩
        have hcd : isDigit c0 = true := natDigs_all_digits _ c0 (by rw [hct]; simp)
        obtain ⟨hw, h1, h2, h3, _, _, _⟩ := isDigit_no_special c0 hcd
        refine ⟨c0, t0, ?_, hw, h1, h2, h3⟩
        rw [dispD_int, intDisp, if_neg hneg, hct]
    | float lit =>
      rw [goodD_float] at hg
      cases hg
  | object m =>
    exact ⟨'\x7b', dispM m ++ ['\x7d'], rfl, by decide, by decide, by decide, by decide⟩
  | array a =>
    exact ⟨'[', dispA a ++ [']'], rfl, by decide, by decide, by decide, by decide⟩
  | boolean b =>
    cases b
    · exact ⟨'f', "alse".toList, rfl, by decide, by decide, by decide, by decide⟩
    · exact ⟨'t', "rue".toList, rfl, by decide, by decide, by decide, by decide⟩
  | null =>
    exact ⟨'n', "ull".toList, rfl, by decide, by decide, by decide, by decide⟩

/-- An entry's key string occurs among the map's key strings. -/
theorem keyStr_mem (m : Json) (kv : JsonDtype × JsonDtype) (h : kv ∈ m) :
    keyStr kv.1 ∈ keyStrs m := by
  induction m with
  | nil => cases h
  | cons x t ih =>
    obtain ⟨k2, v2⟩ := x
    rcases List.mem_cons.1 h with rfl | hm
    · rw [keyStrs]
      exact List.mem_cons_self _ _
    · rw [keyStrs]
      exact List.mem_cons_of_mem _ (ih hm)

/-- Length of a comma-led displayed array tail. -/
theorem dispAT_cons_len (v : JsonDtype) (vs : List JsonDtype) :
    (dispAT (v :: vs)).length = 2 + (dispD v).length + (dispAT vs).length := by
  rw [dispAT]
  simp
  omega

/-- Shape of a comma-led displayed array tail under an appended suffix. -/
theorem dispAT_cons_shape (v : JsonDtype) (vs : List JsonDtype) (x : List Char) :
    dispAT (v :: vs) ++ x = ',' :: (' ' :: (dispD v ++ (dispAT vs ++ x))) := by
  rw [dispAT]
  simp

/-- Shape of a displayed array body under an appended suffix. -/
theorem dispA_cons_shape (v : JsonDtype) (vs : List JsonDtype) (x : List Char) :
    dispA (v :: vs) ++ x = dispD v ++ (dispAT vs ++ x) := by
  rw [dispA]
  simp

/-- Length of a displayed object body. -/
theorem dispM_cons_len (k v : JsonDtype) (es : Json) :
    (dispM ((k, v) :: es)).length
      = (dispD k).length + 2 + (dispD v).length + (dispMT es).length := by
  rw [dispM]
  simp
  omega

/-- A displayed object tail is at least as long as the corresponding body. -/
theorem dispM_le_dispMT (es : Json) : (dispM es).length ≤ (dispMT es).length := by
  cases es with
  | nil => exact Nat.le_refl _
  | cons e t =>
    obtain ⟨k, v⟩ := e
    rw [dispM, dispMT]
    simp
    omega

/-- Shape of a displayed object body under an appended suffix. -/
theorem dispM_cons_shape (k v : JsonDtype) (es : Json) (x : List Char) :
    dispM ((k, v) :: es) ++ x
      = dispD k ++ (':' :: (' ' :: (dispD v ++ (dispMT es ++ x)))) := by
  rw [dispM]
  simp

/-- Shape of a comma-led displayed object tail under an appended suffix. -/
theorem dispMT_cons_shape (k v : JsonDtype) (es : Json) (x : List Char) :
    dispMT ((k, v) :: es) ++ x
      = ',' :: (' ' :: (dispD k ++ (':' :: (' ' :: (dispD v ++ (dispMT es ++ x)))))) := by
  rw [dispMT]
  simp

/-- Array-loop dispatch when the head character is not whitespace. -/
theorem pstep_arr_nows (f : Nat) (acc : List JsonDtype) (c0 : Char) (t0 : List Char)
    (hws : isWs c0 = false) :
    pstep (f+1) (.arrLoop acc (c0 :: t0)) =
      (if c0 = ']' then .ok (.array acc, t0)
       else if c0 = ',' then pstep f (.arrLoop acc t0)
       else match pstep f (.value (c0 :: t0)) with
            | .ok (v, r) => pstep f (.arrLoop (acc ++ [v]) r)
            | .panic => .panic
            | .out => .out) := by
  rw [pstep_arr, skipWs_not_ws c0 t0 hws]

/-- Object-loop dispatch when the head character is not whitespace. -/
theorem pstep_obj_nows (f : Nat) (acc : Json) (c0 : Char) (t0 : List Char)
    (hws : isWs c0 = false) :
    pstep (f+1) (.objLoop acc (c0 :: t0)) =
      (if c0 = '\x7d' then .ok (.object acc, t0)
       else match pstep f (.value (c0 :: t0)) with
            | .ok (key, r1) =>
              (match skipWs r1 with
               | ':' :: r2 =>
                 (match pstep f (.value r2) with
                  | .ok (val, r3) =>
                    (match skipWs r3 with
                     | ',' :: r4 => pstep f (.objLoop (acc.insertJ key val) r4)
                     | '}' :: r4 => .ok (.object (acc.insertJ key val), r4)
                     | _ => .panic)
                  | .panic => .panic
                  | .out => .out)
               | _ => .panic)
            | .panic => .panic
            | .out => .out) := by
  rw [pstep_obj, skipWs_not_ws c0 t0 hws]

/-- The array loop consumes the comma-led displayed tail of an array and
appends the parsed elements. -/
theorem arrContAux :
    ∀ (vs : List JsonDtype),
    (∀ v ∈ vs, goodD v = true ∧
      ∀ fuel rest, 2 * (dispD v).length + 2 ≤ fuel → stopOk v rest →
        pstep fuel (.value (dispD v ++ rest)) = .ok (v, rest)) →
    ∀ done fuel rest, 2 * (dispAT vs).length + 2 ≤ fuel →
      pstep fuel (.arrLoop done (dispAT vs ++ (']' :: rest)))
        = .ok (.array (done ++ vs), rest) := by
  intro vs
  induction vs with
  | nil =>
    intro _ done fuel rest hfuel
    obtain ⟨f, rfl⟩ : ∃ f, fuel = f + 1 := ⟨fuel - 1, by omega⟩
    show pstep (f+1) (.arrLoop done (']' :: rest)) = _
    rw [pstep_arr_nows f done ']' rest (by decide), if_pos rfl]
    simp
  | cons v vs ihl =>
    intro ihv done fuel rest hfuel
    have hg := (ihv v (List.mem_cons_self v vs)).1
    have hval := (ihv v (List.mem_cons_self v vs)).2
    rw [dispAT_cons_len] at hfuel
    obtain ⟨f3, rfl⟩ : ∃ f3, fuel = f3 + 1 + 1 + 1 := ⟨fuel - 3, by omega⟩
    rw [dispAT_cons_shape]
    rw [pstep_arr_nows _ done ',' _ (by decide), if_neg (by decide), if_pos rfl]
    rw [pstep_arr_ws _ done ' ' _ (by decide)]
    obtain ⟨c0, t0, hd, hw, hne1, hne2, _⟩ := disp_head v hg
    have hshape : dispD v ++ (dispAT vs ++ (']' :: rest))
        = c0 :: (t0 ++ (dispAT vs ++ (']' :: rest))) := by rw [hd]; simp
    rw [hshape]
    rw [pstep_arr_nows _ done c0 _ hw, if_neg hne1, if_neg hne2]
    rw [← hshape]
    rw [hval (f3+1) (dispAT vs ++ (']' :: rest)) (by omega) (stopOk_arr_tail v vs rest)]
    show pstep (f3+1) (.arrLoop (done ++ [v]) (dispAT vs ++ (']' :: rest))) = _
    rw [ihl (fun w hw2 => ihv w (List.mem_cons_of_mem v hw2)) (done ++ [v]) (f3+1) rest
      (by omega)]
    simp

/-- The object loop consumes the displayed body of a good object and ends
with the serialized entries appended, in order, to the accumulator. -/
theorem objContAux :
    ∀ (es : Json),
    (∀ kv ∈ es, (∃ s, kv.1 = .string s) ∧ goodD kv.2 = true ∧
      ∀ fuel rest, 2 * (dispD kv.2).length + 2 ≤ fuel → stopOk kv.2 rest →
        pstep fuel (.value (dispD kv.2 ++ rest)) = .ok (kv.2, rest)) →
    ∀ done fuel rest,
      (∀ kv ∈ done, ∃ s2, kv.1 = .string s2) →
      noDupStr (keyStrs (done ++ es)) = true →
      2 * (dispM es).length + 2 ≤ fuel →
      pstep fuel (.objLoop done (dispM es ++ ('\x7d' :: rest)))
        = .ok (.object (done ++ es), rest) := by
  intro es
  induction es with
  | nil =>
    intro _ done fuel rest _ _ hfuel
    obtain ⟨f, rfl⟩ : ∃ f, fuel = f + 1 := ⟨fuel - 1, by omega⟩
    show pstep (f+1) (.objLoop done ('\x7d' :: rest)) = _
    rw [pstep_obj_nows f done '\x7d' rest (by decide), if_pos rfl]
    simp
  | cons e es ihl =>
    obtain ⟨k, v⟩ := e
    intro ihv done fuel rest hdone hnodup hfuel
    obtain ⟨⟨s, hks⟩, hg, hval⟩ := ihv (k, v) (List.mem_cons_self _ _)
    have hks2 : k = .string s := hks
    subst hks2
    dsimp only at hg hval
    rw [dispM_cons_len] at hfuel
    obtain ⟨f3, rfl⟩ : ∃ f3, fuel = f3 + 1 + 1 := ⟨fuel - 2, by omega⟩
    rw [dispM_cons_shape]
    have hshape1 : dispD (.string s)
        ++ (':' :: (' ' :: (dispD v ++ (dispMT es ++ ('\x7d' :: rest)))))
        = '"' :: ((escapeStr s ++ ['"'])
          ++ (':' :: (' ' :: (dispD v ++ (dispMT es ++ ('\x7d' :: rest)))))) := by
      rw [dispD_string, dispString]
      simp
    rw [hshape1]
    rw [pstep_obj_nows _ done '"' _ (by decide), if_neg (by decide)]
    rw [← hshape1]
    rw [pstep_value_string f3 s
      (':' :: (' ' :: (dispD v ++ (dispMT es ++ ('\x7d' :: rest)))))]
    show (match skipWs (':' :: (' ' :: (dispD v ++ (dispMT es ++ ('\x7d' :: rest))))) with
      | ':' :: r2 =>
        (match pstep (f3+1) (.value r2) with
         | .ok (val, r3) =>
           (match skipWs r3 with
            | ',' :: r4 => pstep (f3+1) (.objLoop (done.insertJ (.string s) val) r4)
            | '}' :: r4 => .ok (.object (done.insertJ (.string s) val), r4)
            | _ => .panic)
         | .panic => .panic
         | .out => .out)
      | _ => .panic) = .ok (.object (done ++ (.string s, v) :: es), rest)
    rw [skipWs_not_ws ':' _ (by decide)]
    show (match pstep (f3+1) (.value (' ' :: (dispD v ++ (dispMT es ++ ('\x7d' :: rest))))) with
      | .ok (val, r3) =>
        (match skipWs r3 with
         | ',' :: r4 => pstep (f3+1) (.objLoop (done.insertJ (.string s) val) r4)
         | '}' :: r4 => .ok (.object (done.insertJ (.string s) val), r4)
         | _ => .panic)
      | .panic => .panic
      | .out => .out) = .ok (.object (done ++ (.string s, v) :: es), rest)
    rw [pstep_value_ws f3 ' ' _ (by decide)]
    rw [hval (f3+1) (dispMT es ++ ('\x7d' :: rest)) (by omega) (stopOk_obj_tail v es rest)]
    show (match skipWs (dispMT es ++ ('\x7d' :: rest)) with
      | ',' :: r4 => pstep (f3+1) (.objLoop (done.insertJ (.string s) v) r4)
      | '}' :: r4 => .ok (.object (done.insertJ (.string s) v), r4)
      | _ => .panic) = .ok (.object (done ++ (.string s, v) :: es), rest)
    have hfresh : ∀ kv ∈ done, JsonDtype.beq (.string s) kv.1 = false := by
      intro kv hkv
      obtain ⟨s2, hs2⟩ := hdone kv hkv
      have hsplit : keyStrs (done ++ (.string s, v) :: es)
          = keyStrs done ++ (s :: keyStrs es) := by
        rw [keyStrs_append]
        rfl
      rw [hsplit] at hnodup
      have hnotin : s ∉ keyStrs done := noDupStr_split (keyStrs done) s (keyStrs es) hnodup
      have hmem : keyStr kv.1 ∈ keyStrs done := keyStr_mem done kv hkv
      rw [hs2] at hmem ⊢
      rw [beq_string]
      have : s ≠ s2 := by
        intro he
        subst he
        exact hnotin hmem
      simp [this]
    rw [insertJ_fresh done (.string s) v hfresh]
    cases es with
    | nil =>
      show (match skipWs ('\x7d' :: rest) with
        | ',' :: r4 => pstep (f3+1)
            (PMode.objLoop (done ++ [((JsonDtype.string s : JsonDtype), v)]) r4)
        | '}' :: r4 => PRes.ok
            ((JsonDtype.object (done ++ [((JsonDtype.string s : JsonDtype), v)]) : JsonDtype), r4)
        | _ => PRes.panic) = _
      rw [skipWs_not_ws '\x7d' _ (by decide)]
      simp
    | cons e2 es2 =>
      obtain ⟨k2, v2⟩ := e2
      have hsh : dispMT ((k2, v2) :: es2) ++ ('\x7d' :: rest)
          = ',' :: (' ' :: (dispM ((k2, v2) :: es2) ++ ('\x7d' :: rest))) := by
        rw [dispMT_cons_shape, dispM_cons_shape]
      rw [hsh]
      rw [skipWs_not_ws ',' _ (by decide)]
      show pstep (f3+1) (.objLoop (done ++ [(.string s, v)])
        (' ' :: (dispM ((k2, v2) :: es2) ++ ('\x7d' :: rest)))) = _
      rw [pstep_obj_ws f3 _ ' ' _ (by decide)]
      have harg1 : ∀ kv ∈ done ++ [((JsonDtype.string s : JsonDtype), v)],
          ∃ s2, kv.1 = JsonDtype.string s2 := by
        intro kv hkv
        rcases List.mem_append.1 hkv with hm | hm
        · exact hdone kv hm
        · rcases List.mem_singleton.1 hm with rfl
          exact ⟨s, rfl⟩
      have harg2 : noDupStr (keyStrs ((done ++ [((JsonDtype.string s : JsonDtype), v)])
          ++ ((k2, v2) :: es2))) = true := by
        have he : done ++ [((JsonDtype.string s : JsonDtype), v)] ++ ((k2, v2) :: es2)
            = done ++ (JsonDtype.string s, v) :: ((k2, v2) :: es2) := by simp
        rw [he]
        exact hnodup
      have harg3 : 2 * (dispM ((k2, v2) :: es2)).length + 2 ≤ f3 + 1 := by
        have h1 := dispM_le_dispMT ((k2, v2) :: es2)
        omega
      rw [ihl (fun kv hkv => ihv kv (List.mem_cons_of_mem _ hkv))
        (done ++ [((JsonDtype.string s : JsonDtype), v)]) (f3+1) rest harg1 harg2 harg3]
      have hfin : done ++ [((JsonDtype.string s : JsonDtype), v)] ++ ((k2, v2) :: es2)
          = done ++ (JsonDtype.string s, v) :: ((k2, v2) :: es2) := by simp
      rw [hfin]

/-- Size of a displayed array value. -/
theorem dispD_arr_len (a : List JsonDtype) :
    (dispD (.array a)).length = 2 + (dispA a).length := by
  rw [dispD_arr]
  simp
  omega

/-- Size of a displayed object value. -/
theorem dispD_obj_len (m : Json) :
    (dispD (.object m)).length = 2 + (dispM m).length := by
  rw [dispD_obj]
  simp
  omega

/-- Length of a displayed array body. -/
theorem dispA_cons_len (v : JsonDtype) (vs : List JsonDtype) :
    (dispA (v :: vs)).length = (dispD v).length + (dispAT vs).length := by
  rw [dispA]
  simp

/-- Size of an array value in terms of its element list. -/
theorem sizeD_arr_eq (a : List JsonDtype) : sizeD (.array a) = 1 + sizeA a := rfl

/-- Size of an object value in terms of its entry list. -/
theorem sizeD_obj_eq (m : Json) : sizeD (.object m) = 1 + sizeM m := rfl

/-- Main round-trip statement: the value parser recovers every good value
from its display form, given fuel linear in the display length and a
suitable stop character. -/
theorem roundTripVal (N : Nat) :
    ∀ v, sizeD v ≤ N → goodD v = true →
    ∀ fuel rest, 2 * (dispD v).length + 2 ≤ fuel → stopOk v rest →
    pstep fuel (.value (dispD v ++ rest)) = .ok (v, rest) := by
  induction N using Nat.strong_induction_on with
  | _ N ih =>
    intro v hsz hg fuel rest hfuel hstop
    obtain ⟨f, rfl⟩ : ∃ f, fuel = f + 1 := ⟨fuel - 1, by omega⟩
    cases v with
    | string s => exact pstep_value_string f s rest
    | number n =>
      cases n with
      | integer i =>
        have hr : i128Min ≤ i ∧ i ≤ i128Max := by
          rw [goodD_int] at hg
          simp only [Bool.and_eq_true, decide_eq_true_eq] at hg
          exact hg
        obtain ⟨c, r, rfl, hc⟩ := hstop
        exact pstep_value_int f i hr.1 hr.2 c r hc
      | float lit =>
        rw [goodD_float] at hg
        cases hg
    | boolean b =>
      obtain ⟨c, r, rfl, hc⟩ := hstop
      exact pstep_value_bool f b c r hc
    | null =>
      obtain ⟨c, r, rfl, hc⟩ := hstop
      exact pstep_value_null f c r hc
    | array a =>
      have hga : goodA a = true := by rw [goodD_arr] at hg; exact hg
      have hlen := dispD_arr_len a
      have hd : dispD (.array a) ++ rest = '[' :: (dispA a ++ (']' :: rest)) := by
        rw [dispD_arr]
        simp
      rw [hd, pstep_value_nows f '[' _ (by decide)]
      rw [if_neg (by decide), if_neg (by decide), if_neg (by decide), if_neg (by decide),
        if_pos rfl]
      cases a with
      | nil =>
        obtain ⟨f2, rfl⟩ : ∃ f2, f = f2 + 1 := ⟨f - 1, by omega⟩
        show pstep (f2+1) (.arrLoop [] (']' :: rest)) = _
        rw [pstep_arr_nows f2 [] ']' rest (by decide), if_pos rfl]
      | cons w ws =>
        have hgw : goodD w = true := goodA_mem _ hga w (List.mem_cons_self w ws)
        have hlen2 := dispA_cons_len w ws
        rw [dispA_cons_shape]
        obtain ⟨f2, rfl⟩ : ∃ f2, f = f2 + 1 := ⟨f - 1, by omega⟩
        obtain ⟨c0, t0, hdw, hw, hne1, hne2, _⟩ := disp_head w hgw
        have hshape : dispD w ++ (dispAT ws ++ (']' :: rest))
            = c0 :: (t0 ++ (dispAT ws ++ (']' :: rest))) := by rw [hdw]; simp
        rw [hshape, pstep_arr_nows f2 [] c0 _ hw, if_neg hne1, if_neg hne2, ← hshape]
        have hszw : sizeD w < N := by
          have h1 := sizeD_mem_arr (w :: ws) w (List.mem_cons_self w ws)
          have h2 := sizeD_arr_eq (w :: ws)
          omega
        rw [ih (sizeD w) hszw w (Nat.le_refl _) hgw f2 (dispAT ws ++ (']' :: rest))
          (by omega) (stopOk_arr_tail w ws rest)]
        show pstep f2 (.arrLoop ([] ++ [w]) (dispAT ws ++ (']' :: rest))) = _
        have hihv : ∀ u ∈ ws, goodD u = true ∧
            ∀ fuel2 rest2, 2 * (dispD u).length + 2 ≤ fuel2 → stopOk u rest2 →
              pstep fuel2 (.value (dispD u ++ rest2)) = .ok (u, rest2) := by
          intro u hu
          have hgu : goodD u = true := goodA_mem _ hga u (List.mem_cons_of_mem w hu)
          have hszu : sizeD u < N := by
            have h1 := sizeD_mem_arr (w :: ws) u (List.mem_cons_of_mem w hu)
            have h2 := sizeD_arr_eq (w :: ws)
            omega
          exact ⟨hgu, fun fuel2 rest2 hb hs =>
            ih (sizeD u) hszu u (Nat.le_refl _) hgu fuel2 rest2 hb hs⟩
        rw [arrContAux ws hihv ([] ++ [w]) f2 rest (by omega)]
        simp
    | object m =>
      have hgm : goodM m = true ∧ noDupStr (keyStrs m) = true := by
        rw [goodD_obj] at hg
        simpa [Bool.and_eq_true] using hg
      have hlen := dispD_obj_len m
      have hd : dispD (.object m) ++ rest = '\x7b' :: (dispM m ++ ('\x7d' :: rest)) := by
        rw [dispD_obj]
        simp
      rw [hd, pstep_value_nows f '\x7b' _ (by decide)]
      rw [if_neg (by decide), if_neg (by decide), if_neg (by decide), if_neg (by decide),
        if_neg (by decide), if_pos rfl]
      have hihv : ∀ kv ∈ m, (∃ s, kv.1 = JsonDtype.string s) ∧ goodD kv.2 = true ∧
          ∀ fuel2 rest2, 2 * (dispD kv.2).length + 2 ≤ fuel2 → stopOk kv.2 rest2 →
            pstep fuel2 (.value (dispD kv.2 ++ rest2)) = .ok (kv.2, rest2) := by
        intro kv hkv
        obtain ⟨hstr, hgv⟩ := goodM_mem m hgm.1 kv hkv
        have hszv : sizeD kv.2 < N := by
          have h1 := sizeD_mem_obj m kv hkv
          have h2 := sizeD_obj_eq m
          omega
        exact ⟨hstr, hgv, fun fuel2 rest2 hb hs =>
          ih (sizeD kv.2) hszv kv.2 (Nat.le_refl _) hgv fuel2 rest2 hb hs⟩
      rw [objContAux m hihv [] f rest (by intro kv h; cases h)
        (by simpa using hgm.2) (by omega)]
      simp

/-- On all-string-key maps, `stringify` coincides with the `Display` form
(the quoting of non-string keys never triggers). -/
theorem strifyM_eq_dispM : ∀ (m : Json), (∀ kv ∈ m, ∃ s, kv.1 = .string s) →
    strifyM m = dispM m ∧ strifyMT m = dispMT m := by
  intro m
  induction m with
  | nil => exact fun _ => ⟨rfl, rfl⟩
  | cons kv t ih =>
    intro h
    obtain ⟨k, v⟩ := kv
    obtain ⟨s, hs⟩ := h (k, v) (List.mem_cons_self _ _)
    have hs2 : k = .string s := hs
    subst hs2
    have iht := ih (fun kv2 hkv2 => h kv2 (List.mem_cons_of_mem _ hkv2))
    constructor
    · rw [strifyM, dispM, iht.2]
      rw [show strifyEntry (JsonDtype.string s, v)
        = dispD (.string s) ++ ':' :: ' ' :: dispD v from rfl]
    · rw [strifyMT, dispMT, iht.2]
      rw [show strifyEntry (JsonDtype.string s, v)
        = dispD (.string s) ++ ':' :: ' ' :: dispD v from rfl]
      simp

/-- C1 amended: for every accepted input whose parse result lies in the
round-trippable fragment (string keys, distinct keys per object, in-range
integers, no floats), parsing the compact serialization returns the very
same object, so `parse(stringify(parse(s))) = parse(s)`. -/
theorem C1_round_trip (s : List Char) (o : Json)
    (hok : Json.parse s = .ok o) (hg : goodJ o = true) :
    Json.parse (Json.stringify o) = .ok o := by
  have hgm : goodM o = true ∧ noDupStr (keyStrs o) = true := by
    rw [goodJ, goodD_obj] at hg
    simpa [Bool.and_eq_true] using hg
  have hkeys : ∀ kv ∈ o, ∃ s2, kv.1 = JsonDtype.string s2 :=
    fun kv hkv => (goodM_mem o hgm.1 kv hkv).1
  have hstr : Json.stringify o = '\x7b' :: (dispM o ++ ('\x7d' :: [])) := by
    rw [Json.stringify, (strifyM_eq_dispM o hkeys).1]
    simp
  rw [hstr]
  unfold Json.parse Json.parseTop
  rw [skipWs_not_ws '\x7b' _ (by decide)]
  dsimp only
  rw [if_pos rfl]
  have hihv : ∀ kv ∈ o, (∃ s2, kv.1 = JsonDtype.string s2) ∧ goodD kv.2 = true ∧
      ∀ fuel2 rest2, 2 * (dispD kv.2).length + 2 ≤ fuel2 → stopOk kv.2 rest2 →
        pstep fuel2 (.value (dispD kv.2 ++ rest2)) = .ok (kv.2, rest2) := by
    intro kv hkv
    obtain ⟨hstr2, hgv⟩ := goodM_mem o hgm.1 kv hkv
    exact ⟨hstr2, hgv, fun fuel2 rest2 hb hs =>
      roundTripVal (sizeD kv.2) kv.2 (Nat.le_refl _) hgv fuel2 rest2 hb hs⟩
  have hlen : ('\x7b' :: (dispM o ++ ('\x7d' :: []))).length = (dispM o).length + 2 := by
    simp
  rw [objContAux o hihv [] (2 * ('\x7b' :: (dispM o ++ ('\x7d' :: []))).length + 8) []
    (by intro kv hkv; cases hkv) (by simpa using hgm.2) (by rw [hlen]; omega)]
  simp

/-- Witness for C1 amended at the input assigning 1 to the key `a`. -/
theorem C1_round_trip_witness :
    Json.parse (Json.stringify [(.string ['a'], .number (.integer 1))])
      = .ok [(.string ['a'], .number (.integer 1))] :=
  C1_round_trip ['\x7b', '"', 'a', '"', ':', ' ', '1', '\x7d']
    [(.string ['a'], .number (.integer 1))] rfl rfl

/-- `List.find?` only depends on the test's values on the list. -/
theorem findq_congr {α : Type} (p q : α → Bool) :
    ∀ (l : List α), (∀ a ∈ l, p a = q a) → l.find? p = l.find? q := by
  intro l
  induction l with
  | nil => intro _; rfl
  | cons x t ih =>
    intro h
    rw [List.find?_cons, List.find?_cons, h x (List.mem_cons_self x t)]
    cases q x
    · exact ih (fun a ha => h a (List.mem_cons_of_mem x ha))
    · rfl

/-- `List.all` only depends on the test's values on the list. -/
theorem allb_congr {α : Type} (p q : α → Bool) :
    ∀ (l : List α), (∀ a ∈ l, p a = q a) → l.all p = l.all q := by
  intro l
  induction l with
  | nil => intro _; rfl
  | cons x t ih =>
    intro h
    rw [List.all_cons, List.all_cons, h x (List.mem_cons_self x t),
      ih (fun a ha => h a (List.mem_cons_of_mem x ha))]

/-- Any fuel above the combined size computes Rust equality. -/
theorem beqF_irrel (f : Nat) :
    ∀ x y, sizeD x + sizeD y < f → beqF f x y = x.beq y := by
  induction f using Nat.strong_induction_on with
  | _ f ihf =>
    intro x y hs
    obtain ⟨g, rfl⟩ : ∃ g, f = g + 1 := ⟨f - 1, by omega⟩
    set S := sizeD x + sizeD y with hS
    show beqF (g+1) x y = beqF (S+1) x y
    cases x with
    | string a => cases y <;> rfl
    | number a => cases y <;> rfl
    | boolean a => cases y <;> rfl
    | null => cases y <;> rfl
    | array a =>
      cases y with
      | array b =>
        show (_ && (a.zip b).all fun p => beqF g p.1 p.2)
            = (_ && (a.zip b).all fun p => beqF S p.1 p.2)
        have hcong : ∀ p ∈ a.zip b, beqF g p.1 p.2 = beqF S p.1 p.2 := by
          intro p hp
          obtain ⟨h1, h2⟩ := List.of_mem_zip hp
          have s1 := sizeD_mem_arr a p.1 h1
          have s2 := sizeD_mem_arr b p.2 h2
          have hlt : sizeD p.1 + sizeD p.2 < S := by
            rw [hS, sizeD_arr_eq, sizeD_arr_eq]
            omega
          rw [ihf g (by omega) p.1 p.2 (by omega),
            ihf S (by omega) p.1 p.2 hlt]
        rw [allb_congr _ _ _ hcong]
      | string b => rfl
      | number b => rfl
      | boolean b => rfl
      | null => rfl
      | object b => rfl
    | object a =>
      cases y with
      | object b =>
        show (_ && a.all fun kv =>
            (match b.find? fun kv2 => beqF g kv.1 kv2.1 with
             | some kv2 => beqF g kv.2 kv2.2
             | none => false))
          = (_ && a.all fun kv =>
            (match b.find? fun kv2 => beqF S kv.1 kv2.1 with
             | some kv2 => beqF S kv.2 kv2.2
             | none => false))
        have hcong : ∀ kv ∈ a,
            (match b.find? fun kv2 => beqF g kv.1 kv2.1 with
             | some kv2 => beqF g kv.2 kv2.2
             | none => false)
          = (match b.find? fun kv2 => beqF S kv.1 kv2.1 with
             | some kv2 => beqF S kv.2 kv2.2
             | none => false) := by
          intro kv hkv
          have sk := sizeD_mem_obj a kv hkv
          have hfind : (b.find? fun kv2 => beqF g kv.1 kv2.1)
              = b.find? fun kv2 => beqF S kv.1 kv2.1 := by
            apply findq_congr
            intro kv2 hkv2
            have sk2 := sizeD_mem_obj b kv2 hkv2
            have hlt : sizeD kv.1 + sizeD kv2.1 < S := by
              rw [hS, sizeD_obj_eq, sizeD_obj_eq]
              omega
            rw [ihf g (by omega) kv.1 kv2.1 (by omega),
              ihf S (by omega) kv.1 kv2.1 hlt]
          rw [hfind]
          cases hres : b.find? fun kv2 => beqF S kv.1 kv2.1 with
          | none => rfl
          | some kv2 =>
            have hmem2 := List.mem_of_find?_eq_some hres
            have sk2 := sizeD_mem_obj b kv2 hmem2
            have hlt : sizeD kv.2 + sizeD kv2.2 < S := by
              rw [hS, sizeD_obj_eq, sizeD_obj_eq]
              omega
            show beqF g kv.2 kv2.2 = beqF S kv.2 kv2.2
            rw [ihf g (by omega) kv.2 kv2.2 (by omega),
              ihf S (by omega) kv.2 kv2.2 hlt]
        rw [allb_congr _ _ _ hcong]
      | string b => rfl
      | number b => rfl
      | boolean b => rfl
      | null => rfl
      | array b => rfl

/-- A successful lookup splits the map at the first matching key. -/
theorem findB_some_split (k : JsonDtype) :
    ∀ (m : Json) (v : JsonDtype), findB k m = some v →
    ∃ pre k0 suf, m = pre ++ (k0, v) :: suf ∧ k.beq k0 = true
      ∧ ∀ e ∈ pre, k.beq e.1 = false := by
  intro m
  induction m with
  | nil => intro v h; cases h
  | cons e t ih =>
    obtain ⟨k2, v2⟩ := e
    intro v h
    rw [findB] at h
    by_cases hb : k.beq k2 = true
    · rw [if_pos hb] at h
      injection h with h2
      subst h2
      exact ⟨[], k2, t, rfl, hb, fun e he => absurd he (List.not_mem_nil e)⟩
    · rw [if_neg hb] at h
      obtain ⟨pre, k0, suf, hsplit, hbeq, hpre⟩ := ih v h
      refine ⟨(k2, v2) :: pre, k0, suf, by rw [hsplit]; rfl, hbeq, ?_⟩
      intro e he
      rcases List.mem_cons.1 he with rfl | hm
      · exact Bool.not_eq_true _ ▸ (by simpa using hb)
      · exact hpre e hm

/-- A failed lookup means no key matches. -/
theorem findB_none_iff (k : JsonDtype) :
    ∀ (m : Json), findB k m = none ↔ ∀ kv ∈ m, k.beq kv.1 = false := by
  intro m
  induction m with
  | nil => simp [findB]
  | cons e t ih =>
    obtain ⟨k2, v2⟩ := e
    rw [findB]
    by_cases hb : k.beq k2 = true
    · rw [if_pos hb]
      simp only [reduceCtorEq, false_iff]
      intro hall
      have := hall (k2, v2) (List.mem_cons_self _ _)
      rw [hb] at this
      cases this
    · rw [if_neg hb]
      rw [ih]
      constructor
      · intro hall kv hkv
        rcases List.mem_cons.1 hkv with rfl | hm
        · simpa using hb
        · exact hall kv hm
      · intro hall kv hkv
        exact hall kv (List.mem_cons_of_mem _ hkv)

/-- Lookups ignore a non-matching middle entry. -/
theorem findB_skip_middle (k k0 v0 : JsonDtype) (hb : k.beq k0 = false) :
    ∀ (pre suf : Json), findB k (pre ++ (k0, v0) :: suf) = findB k (pre ++ suf) := by
  intro pre
  induction pre with
  | nil =>
    intro suf
    show findB k ((k0, v0) :: suf) = _
    rw [findB, hb]
    simp
  | cons e t ih =>
    intro suf
    obtain ⟨k2, v2⟩ := e
    show findB k ((k2, v2) :: (t ++ (k0, v0) :: suf)) = findB k ((k2, v2) :: (t ++ suf))
    rw [findB, findB, ih]

/-- A lookup finds a matching entry after a non-matching prefix. -/
theorem findB_of_split (k k0 v0 : JsonDtype) (hb : k.beq k0 = true) :
    ∀ (pre suf : Json), (∀ e ∈ pre, k.beq e.1 = false) →
    findB k (pre ++ (k0, v0) :: suf) = some v0 := by
  intro pre
  induction pre with
  | nil =>
    intro suf _
    show findB k ((k0, v0) :: suf) = _
    rw [findB, hb]
    simp
  | cons e t ih =>
    intro suf hpre
    obtain ⟨k2, v2⟩ := e
    show findB k ((k2, v2) :: (t ++ (k0, v0) :: suf)) = some v0
    rw [findB]
    rw [hpre (k2, v2) (List.mem_cons_self _ _)]
    simp only [Bool.false_eq_true, if_false]
    exact ih suf (fun e2 he2 => hpre e2 (List.mem_cons_of_mem _ he2))

/-- `sizeM` is additive over append. -/
theorem sizeM_append : ∀ (a b : Json), sizeM (a ++ b) = sizeM a + sizeM b := by
  intro a
  induction a with
  | nil => intro b; simp [sizeM]
  | cons e t ih =>
    intro b
    obtain ⟨k2, v2⟩ := e
    show sizeM ((k2, v2) :: (t ++ b)) = _
    rw [sizeM, ih, sizeM]
    omega

/-- `wfM` over an append splits. -/
theorem wfM_append : ∀ (a b : Json),
    wfM (a ++ b) = true ↔ wfM a = true ∧ wfM b = true := by
  intro a
  induction a with
  | nil => intro b; simp [wfM]
  | cons e t ih =>
    intro b
    obtain ⟨k2, v2⟩ := e
    show wfM ((k2, v2) :: (t ++ b)) = true ↔ wfM ((k2, v2) :: t) = true ∧ _
    rw [wfM, wfM]
    simp only [Bool.and_eq_true, ih]
    tauto

/-- `keysOf` distributes over append. -/
theorem keysOf_append : ∀ (a b : Json), keysOf (a ++ b) = keysOf a ++ keysOf b := by
  intro a
  induction a with
  | nil => intro b; rfl
  | cons e t ih =>
    intro b
    obtain ⟨k2, v2⟩ := e
    show keysOf ((k2, v2) :: (t ++ b)) = _
    rw [keysOf, ih, keysOf]
    rfl

/-- `noBeqKey` as a membership statement. -/
theorem noBeqKey_iff (k : JsonDtype) : ∀ (l : List JsonDtype),
    noBeqKey k l = true ↔ ∀ k2 ∈ l, k.beq k2 = false ∧ k2.beq k = false := by
  intro l
  induction l with
  | nil => simp [noBeqKey]
  | cons x t ih =>
    rw [noBeqKey]
    simp only [Bool.and_eq_true, Bool.not_eq_true', ih]
    constructor
    · rintro ⟨⟨h1, h2⟩, h3⟩ k2 hk2
      rcases List.mem_cons.1 hk2 with rfl | hm
      · exact ⟨h1, h2⟩
      · exact h3 k2 hm
    · intro h
      exact ⟨h x (List.mem_cons_self _ _), fun k2 hk2 => h k2 (List.mem_cons_of_mem _ hk2)⟩

/-- Splitting a pairwise-unrelated key list at an element. -/
theorem pairwiseNoBeq_split : ∀ (xs : List JsonDtype) (k0 : JsonDtype) (ys : List JsonDtype),
    pairwiseNoBeq (xs ++ k0 :: ys) = true →
    (∀ k2 ∈ xs ++ ys, k0.beq k2 = false ∧ k2.beq k0 = false)
      ∧ pairwiseNoBeq (xs ++ ys) = true := by
  intro xs
  induction xs with
  | nil =>
    intro k0 ys h
    rw [List.nil_append] at h
    rw [pairwiseNoBeq] at h
    simp only [Bool.and_eq_true] at h
    rw [List.nil_append]
    refine ⟨?_, h.2⟩
    intro k2 hk2
    have := (noBeqKey_iff k0 ys).1 h.1 k2 hk2
    exact this
  | cons x t ih =>
    intro k0 ys h
    rw [show (x :: t) ++ k0 :: ys = x :: (t ++ k0 :: ys) from rfl, pairwiseNoBeq] at h
    simp only [Bool.and_eq_true] at h
    obtain ⟨hx, hrest⟩ := h
    obtain ⟨hall, hpw⟩ := ih k0 ys hrest
    have hx2 := (noBeqKey_iff x (t ++ k0 :: ys)).1 hx
    constructor
    · intro k2 hk2
      rcases List.mem_cons.1 (by simpa using hk2 : k2 ∈ x :: (t ++ ys)) with rfl | hm
      · have := hx2 k0 (by simp)
        exact ⟨this.2, this.1⟩
      · exact hall k2 hm
    · rw [show (x :: t) ++ ys = x :: (t ++ ys) from rfl, pairwiseNoBeq]
      simp only [Bool.and_eq_true]
      refine ⟨?_, hpw⟩
      rw [noBeqKey_iff]
      intro k2 hk2
      exact hx2 k2 (by
        rcases List.mem_append.1 hk2 with hm | hm
        · exact List.mem_append.2 (Or.inl hm)
        · exact List.mem_append.2 (Or.inr (List.mem_cons_of_mem _ hm)))

/-- Self-zipped lists pair each element with itself. -/
theorem zip_self_fst_eq_snd {α : Type} : ∀ (l : List α) (p : α × α), p ∈ l.zip l → p.1 = p.2 := by
  intro l
  induction l with
  | nil => intro p hp; cases hp
  | cons x t ih =>
    intro p hp
    rcases List.mem_cons.1 hp with rfl | hm
    · rfl
    · exact ih p hm

/-- Membership of the swapped pair in the swapped zip. -/
theorem zip_swap_mem {α β : Type} :
    ∀ (a : List α) (b : List β) (p : α × β), p ∈ a.zip b → (p.2, p.1) ∈ b.zip a := by
  intro a
  induction a with
  | nil => intro b p hp; cases hp
  | cons x t ih =>
    intro b p hp
    cases b with
    | nil => cases hp
    | cons y u =>
      rcases List.mem_cons.1 hp with rfl | hm
      · exact List.mem_cons_self _ _
      · exact List.mem_cons_of_mem _ (ih u p hm)

/-- `findB` through `List.find?`. -/
theorem findB_as_findq (k : JsonDtype) : ∀ (m : Json),
    findB k m = Option.map Prod.snd (m.find? (fun kv2 => k.beq kv2.1)) := by
  intro m
  induction m with
  | nil => rfl
  | cons e t ih =>
    obtain ⟨k2, v2⟩ := e
    rw [findB]
    by_cases hb : k.beq k2 = true
    · rw [if_pos hb]
      show _ = Option.map Prod.snd (List.find? (fun kv2 => k.beq kv2.1) ((k2, v2) :: t))
      rw [List.find?_cons_of_pos t hb]
      rfl
    · rw [if_neg hb, ih]
      show _ = Option.map Prod.snd (List.find? (fun kv2 => k.beq kv2.1) ((k2, v2) :: t))
      rw [List.find?_cons_of_neg t hb]

/-- Rust equality of two objects, characterized through `findB`. -/
theorem beq_obj_eq (ma mb : Json) :
    JsonDtype.beq (.object ma) (.object mb)
      = (ma.length == mb.length && ma.all (fun kv =>
          match findB kv.1 mb with
          | some v2 => kv.2.beq v2
          | none => false)) := by
  show beqF (sizeD (JsonDtype.object ma) + sizeD (JsonDtype.object mb) + 1)
      (.object ma) (.object mb) = _
  set S := sizeD (JsonDtype.object ma) + sizeD (JsonDtype.object mb) with hS
  show (ma.length == mb.length && ma.all (fun kv =>
      match mb.find? (fun kv2 => beqF S kv.1 kv2.1) with
      | some kv2 => beqF S kv.2 kv2.2
      | none => false)) = _
  have hcong : ∀ kv ∈ ma,
      (match mb.find? (fun kv2 => beqF S kv.1 kv2.1) with
       | some kv2 => beqF S kv.2 kv2.2
       | none => false)
    = (match findB kv.1 mb with
       | some v2 => kv.2.beq v2
       | none => false) := by
    intro kv hkv
    have sk := sizeD_mem_obj ma kv hkv
    have hfind : (mb.find? fun kv2 => beqF S kv.1 kv2.1)
        = mb.find? fun kv2 => kv.1.beq kv2.1 := by
      apply findq_congr
      intro kv2 hkv2
      have sk2 := sizeD_mem_obj mb kv2 hkv2
      exact beqF_irrel S kv.1 kv2.1 (by rw [hS, sizeD_obj_eq, sizeD_obj_eq]; omega)
    rw [hfind, findB_as_findq]
    cases hres : mb.find? fun kv2 => kv.1.beq kv2.1 with
    | none => rfl
    | some kv2 =>
      have hmem2 := List.mem_of_find?_eq_some hres
      have sk2 := sizeD_mem_obj mb kv2 hmem2
      show beqF S kv.2 kv2.2 = kv.2.beq kv2.2
      exact beqF_irrel S kv.2 kv2.2 (by rw [hS, sizeD_obj_eq, sizeD_obj_eq]; omega)
  rw [allb_congr _ _ _ hcong]

/-- Rust equality of two arrays, characterized through `zip`. -/
theorem beq_arr_eq (a b : List JsonDtype) :
    JsonDtype.beq (.array a) (.array b)
      = (a.length == b.length && (a.zip b).all (fun p => p.1.beq p.2)) := by
  show beqF (sizeD (JsonDtype.array a) + sizeD (JsonDtype.array b) + 1)
      (.array a) (.array b) = _
  set S := sizeD (JsonDtype.array a) + sizeD (JsonDtype.array b) with hS
  show (a.length == b.length && (a.zip b).all (fun p => beqF S p.1 p.2)) = _
  have hcong : ∀ p ∈ a.zip b, beqF S p.1 p.2 = p.1.beq p.2 := by
    intro p hp
    obtain ⟨h1, h2⟩ := List.of_mem_zip hp
    have s1 := sizeD_mem_arr a p.1 h1
    have s2 := sizeD_mem_arr b p.2 h2
    exact beqF_irrel S p.1 p.2 (by rw [hS, sizeD_arr_eq, sizeD_arr_eq]; omega)
  rw [allb_congr _ _ _ hcong]

/-- A boolean match over a lookup, as an existence statement. -/
theorem match_findB_iff (k : JsonDtype) (m : Json) (q : JsonDtype → Bool) :
    ((match findB k m with
      | some v2 => q v2
      | none => false) = true) ↔ (∃ v2, findB k m = some v2 ∧ q v2 = true) := by
  cases h : findB k m with
  | none => simp
  | some v2 => simp

/-- Rust object equality as a proposition. -/
theorem beq_obj_iff (ma mb : Json) :
    (JsonDtype.beq (.object ma) (.object mb) = true)
      ↔ (ma.length = mb.length
          ∧ ∀ kv ∈ ma, ∃ v2, findB kv.1 mb = some v2 ∧ kv.2.beq v2 = true) := by
  rw [beq_obj_eq]
  simp only [Bool.and_eq_true, beq_iff_eq, List.all_eq_true]
  constructor
  · rintro ⟨h1, h2⟩
    exact ⟨h1, fun kv hkv => (match_findB_iff kv.1 mb (kv.2.beq ·)).1 (h2 kv hkv)⟩
  · rintro ⟨h1, h2⟩
    exact ⟨h1, fun kv hkv => (match_findB_iff kv.1 mb (kv.2.beq ·)).2 (h2 kv hkv)⟩

/-- Rust array equality as a proposition. -/
theorem beq_arr_iff (a b : List JsonDtype) :
    (JsonDtype.beq (.array a) (.array b) = true)
      ↔ (a.length = b.length ∧ ∀ p ∈ a.zip b, p.1.beq p.2 = true) := by
  rw [beq_arr_eq]
  simp only [Bool.and_eq_true, beq_iff_eq, List.all_eq_true]

/-- Well-formedness of an object value, unfolded. -/
theorem wfD_obj_eq (m : Json) :
    wfD (.object m) = (wfM m && pairwiseNoBeq (keysOf m)) := rfl

/-- Well-formedness of an array value, unfolded. -/
theorem wfD_arr_eq (a : List JsonDtype) : wfD (.array a) = wfA a := rfl

/-- Entries of a well-formed entry list are well-formed. -/
theorem wfM_mem : ∀ (m : Json), wfM m = true →
    ∀ kv ∈ m, wfD kv.1 = true ∧ wfD kv.2 = true := by
  intro m
  induction m with
  | nil => intro _ kv hkv; cases hkv
  | cons e t ih =>
    obtain ⟨k2, v2⟩ := e
    intro h kv hkv
    rw [wfM] at h
    simp only [Bool.and_eq_true] at h
    obtain ⟨⟨hk, hv⟩, ht⟩ := h
    rcases List.mem_cons.1 hkv with rfl | hm
    · exact ⟨hk, hv⟩
    · exact ih ht kv hm

/-- Elements of a well-formed element list are well-formed. -/
theorem wfA_mem : ∀ (a : List JsonDtype), wfA a = true → ∀ v ∈ a, wfD v = true := by
  intro a
  induction a with
  | nil => intro _ v hv; cases hv
  | cons x t ih =>
    intro h v hv
    rw [wfA] at h
    simp only [Bool.and_eq_true] at h
    rcases List.mem_cons.1 hv with rfl | hm
    · exact h.1
    · exact ih h.2 v hm

/-- Rust equality on number values, unfolded. -/
theorem beq_number (x y : Num) :
    JsonDtype.beq (.number x) (.number y) = numBeq x y := rfl

/-- Rust equality on boolean values, unfolded. -/
theorem beq_boolean (x y : Bool) :
    JsonDtype.beq (.boolean x) (.boolean y) = (x == y) := rfl

/-- `numBeq` is symmetric. -/
theorem numBeq_symm (x y : Num) (h : numBeq x y = true) : numBeq y x = true := by
  cases x <;> cases y <;> try exact Bool.noConfusion h
  case integer.integer a b =>
    have h2 : (a == b) = true := h
    show (b == a) = true
    rw [beq_iff_eq] at h2 ⊢
    exact h2.symm
  case float.float a b =>
    have h2 : (a == b) = true := h
    show (b == a) = true
    rw [beq_iff_eq] at h2 ⊢
    exact h2.symm

/-- `numBeq` is transitive. -/
theorem numBeq_trans (x y z : Num) (h1 : numBeq x y = true) (h2 : numBeq y z = true) :
    numBeq x z = true := by
  cases x <;> cases y <;> try exact Bool.noConfusion h1
  case integer.integer a b =>
    cases z <;> try exact Bool.noConfusion h2
    rename_i c
    have g1 : (a == b) = true := h1
    have g2 : (b == c) = true := h2
    show (a == c) = true
    rw [beq_iff_eq] at g1 g2 ⊢
    exact g1.trans g2
  case float.float a b =>
    cases z <;> try exact Bool.noConfusion h2
    rename_i c
    have g1 : (a == b) = true := h1
    have g2 : (b == c) = true := h2
    show (a == c) = true
    rw [beq_iff_eq] at g1 g2 ⊢
    exact g1.trans g2

/-- The key of an entry of the map is among the keys of the map. -/
theorem mem_keysOf : ∀ (m : Json) (e : JsonDtype × JsonDtype), e ∈ m → e.1 ∈ keysOf m := by
  intro m
  induction m with
  | nil => intro e he; cases he
  | cons x t ih =>
    obtain ⟨k2, v2⟩ := x
    intro e he
    rcases List.mem_cons.1 he with rfl | hm
    · exact List.mem_cons_self _ _
    · exact List.mem_cons_of_mem _ (ih e hm)

/-- Aligned zip membership along three lists of equal length. -/
theorem zip_mem_middle {α : Type} :
    ∀ (a b c : List α), a.length = b.length → b.length = c.length →
    ∀ p ∈ a.zip c, ∃ m, (p.1, m) ∈ a.zip b ∧ (m, p.2) ∈ b.zip c := by
  intro a
  induction a with
  | nil => intro b c _ _ p hp; cases hp
  | cons x t ih =>
    intro b c hl1 hl2 p hp
    cases b with
    | nil => simp at hl1
    | cons y u =>
      cases c with
      | nil => simp at hl2
      | cons z w =>
        rcases List.mem_cons.1 hp with rfl | hm
        · exact ⟨y, List.mem_cons_self _ _, List.mem_cons_self _ _⟩
        · obtain ⟨m, h1, h2⟩ := ih u w (by simpa using hl1) (by simpa using hl2) p hm
          exact ⟨m, List.mem_cons_of_mem _ h1, List.mem_cons_of_mem _ h2⟩

/-- Rust `==` on values is reflexive, symmetric, and transitive on the
well-formed fragment (no `==`-duplicate keys inside any object), by joint
strong induction on total structural size. -/
theorem beq_equiv (N : Nat) :
    (∀ x, sizeD x ≤ N → wfD x = true → x.beq x = true) ∧
    (∀ x y, sizeD x + sizeD y ≤ N → wfD x = true → wfD y = true →
      x.beq y = true → y.beq x = true) ∧
    (∀ x y z, sizeD x + sizeD y + sizeD z ≤ N →
      wfD x = true → wfD y = true → wfD z = true →
      x.beq y = true → y.beq z = true → x.beq z = true) := by
  induction N using Nat.strong_induction_on with
  | _ N ih =>
    refine ⟨?_, ?_, ?_⟩
    · -- reflexivity
      intro x hsz hwf
      cases x with
      | string a => rw [beq_string]; simp
      | number n => rw [beq_number]; cases n <;> simp [numBeq]
      | boolean b => rw [beq_boolean]; simp
      | null => rfl
      | array a =>
        rw [beq_arr_iff]
        refine ⟨rfl, ?_⟩
        intro p hp
        have heq := zip_self_fst_eq_snd a p hp
        obtain ⟨h1, _⟩ := List.of_mem_zip hp
        have hs1 := sizeD_mem_arr a p.1 h1
        have hsa : sizeD (JsonDtype.array a) = 1 + sizeA a := rfl
        have hwfe := wfA_mem a (by rw [wfD_arr_eq] at hwf; exact hwf) p.1 h1
        have hr := (ih (sizeD p.1) (by omega)).1 p.1 le_rfl hwfe
        rw [← heq]
        exact hr
      | object m =>
        rw [beq_obj_iff]
        refine ⟨rfl, ?_⟩
        intro kv hkv
        obtain ⟨k1, v1⟩ := kv
        rw [wfD_obj_eq] at hwf
        simp only [Bool.and_eq_true] at hwf
        obtain ⟨hwfm, hpw⟩ := hwf
        obtain ⟨hwfk, hwfv⟩ := wfM_mem m hwfm (k1, v1) hkv
        have hszk : sizeD k1 ≤ sizeM m := (sizeD_mem_obj m (k1, v1) hkv).1
        have hszv : sizeD v1 ≤ sizeM m := (sizeD_mem_obj m (k1, v1) hkv).2
        have hszm : sizeD (JsonDtype.object m) = 1 + sizeM m := rfl
        have hrefl_k : k1.beq k1 = true := (ih (sizeD k1) (by omega)).1 k1 le_rfl hwfk
        have hrefl_v : v1.beq v1 = true := (ih (sizeD v1) (by omega)).1 v1 le_rfl hwfv
        obtain ⟨s, t, hsplit⟩ := List.append_of_mem hkv
        have hpw2 := pairwiseNoBeq_split (keysOf s) k1 (keysOf t) (by
          rw [hsplit, keysOf_append] at hpw
          exact hpw)
        refine ⟨v1, ?_, hrefl_v⟩
        show findB k1 m = some v1
        rw [hsplit]
        apply findB_of_split k1 k1 v1 hrefl_k s t
        intro e he
        exact (hpw2.1 e.1 (List.mem_append.2 (Or.inl (mem_keysOf s e he)))).1
    · -- symmetry
      intro x y hsz hwx hwy hxy
      cases x <;> cases y <;> try exact Bool.noConfusion hxy
      case string.string a b =>
        rw [beq_string] at hxy ⊢
        rw [beq_iff_eq] at hxy ⊢
        exact hxy.symm
      case number.number na nb =>
        rw [beq_number] at hxy ⊢
        exact numBeq_symm na nb hxy
      case boolean.boolean ba bb =>
        rw [beq_boolean] at hxy ⊢
        rw [beq_iff_eq] at hxy ⊢
        exact hxy.symm
      case null.null => rfl
      case array.array aa ab =>
        rw [beq_arr_iff] at hxy
        obtain ⟨hlen, hall⟩ := hxy
        rw [beq_arr_iff]
        refine ⟨hlen.symm, ?_⟩
        intro p hp
        have hmem := zip_swap_mem ab aa p hp
        have h1 := hall (p.2, p.1) hmem
        obtain ⟨h2a, h2b⟩ := List.of_mem_zip hmem
        have s1 := sizeD_mem_arr aa p.2 h2a
        have s2 := sizeD_mem_arr ab p.1 h2b
        have hx : sizeD (JsonDtype.array aa) = 1 + sizeA aa := rfl
        have hy : sizeD (JsonDtype.array ab) = 1 + sizeA ab := rfl
        have w1 := wfA_mem aa (by rw [wfD_arr_eq] at hwx; exact hwx) p.2 h2a
        have w2 := wfA_mem ab (by rw [wfD_arr_eq] at hwy; exact hwy) p.1 h2b
        exact (ih (sizeD p.2 + sizeD p.1) (by omega)).2.1 p.2 p.1 le_rfl w1 w2 h1
      case object.object ma mb =>
        rw [wfD_obj_eq] at hwx hwy
        simp only [Bool.and_eq_true] at hwx hwy
        obtain ⟨hwma, hpwa⟩ := hwx
        obtain ⟨hwmb, hpwb⟩ := hwy
        rw [beq_obj_iff] at hxy
        obtain ⟨hlen, hall⟩ := hxy
        rw [beq_obj_iff]
        cases ma with
        | nil =>
          cases mb with
          | nil => exact ⟨rfl, fun kv hkv => absurd hkv (List.not_mem_nil kv)⟩
          | cons e t => simp at hlen
        | cons kv1 ma' =>
          obtain ⟨k1, v1⟩ := kv1
          obtain ⟨v', hfind, hbv⟩ := hall (k1, v1) (List.mem_cons_self _ _)
          obtain ⟨pre, k0, suf, hmb, hbk, hpre⟩ := findB_some_split k1 mb v' hfind
          rw [wfM] at hwma
          simp only [Bool.and_eq_true] at hwma
          obtain ⟨⟨hwk1, hwv1⟩, hwma'⟩ := hwma
          rw [show keysOf ((k1, v1) :: ma') = k1 :: keysOf ma' from rfl,
              pairwiseNoBeq] at hpwa
          simp only [Bool.and_eq_true] at hpwa
          obtain ⟨hnk1, hpwa'⟩ := hpwa
          have hnk1' := (noBeqKey_iff k1 (keysOf ma')).1 hnk1
          have hk0mem : (k0, v') ∈ mb := by
            rw [hmb]; exact List.mem_append.2 (Or.inr (List.mem_cons_self _ _))
          have hwk0v : wfD k0 = true ∧ wfD v' = true := wfM_mem mb hwmb (k0, v') hk0mem
          obtain ⟨hwk0, hwv'⟩ := hwk0v
          have hpwbsplit := pairwiseNoBeq_split (keysOf pre) k0 (keysOf suf) (by
            rw [hmb, keysOf_append] at hpwb
            exact hpwb)
          have hwmb' : wfM (pre ++ suf) = true := by
            rw [hmb, wfM_append] at hwmb
            obtain ⟨hp, hq⟩ := hwmb
            rw [wfM] at hq
            simp only [Bool.and_eq_true] at hq
            rw [wfM_append]
            exact ⟨hp, hq.2⟩
          have sma : sizeD (JsonDtype.object ((k1, v1) :: ma'))
              = 1 + (1 + sizeD k1 + sizeD v1 + sizeM ma') := rfl
          have smb : sizeD (JsonDtype.object mb) = 1 + sizeM mb := rfl
          have smbsplit : sizeM mb = sizeM pre + (1 + sizeD k0 + sizeD v' + sizeM suf) := by
            rw [hmb, sizeM_append]
            rfl
          have spre : sizeM (pre ++ suf) = sizeM pre + sizeM suf := sizeM_append pre suf
          have hred : JsonDtype.beq (JsonDtype.object ma')
              (JsonDtype.object (pre ++ suf)) = true := by
            rw [beq_obj_iff]
            constructor
            · have h1 := hlen
              rw [hmb] at h1
              simp only [List.length_cons, List.length_append] at h1 ⊢
              omega
            · intro kv2 hkv2
              obtain ⟨w, hw, hvw⟩ := hall kv2 (List.mem_cons_of_mem _ hkv2)
              have hmemk2 := sizeD_mem_obj ma' kv2 hkv2
              obtain ⟨hwk2, hwv2⟩ := wfM_mem ma' hwma' kv2 hkv2
              have hk2k0 : kv2.1.beq k0 = false := by
                by_contra hcon
                rw [Bool.not_eq_false] at hcon
                have hs1 : k0.beq k1 = true :=
                  (ih (sizeD k1 + sizeD k0) (by omega)).2.1 k1 k0 le_rfl hwk1 hwk0 hbk
                have ht1 : kv2.1.beq k1 = true :=
                  (ih (sizeD kv2.1 + sizeD k0 + sizeD k1) (by omega)).2.2
                    kv2.1 k0 k1 le_rfl hwk2 hwk0 hwk1 hcon hs1
                have hcontra := (hnk1' kv2.1 (mem_keysOf ma' kv2 hkv2)).2
                rw [ht1] at hcontra
                cases hcontra
              refine ⟨w, ?_, hvw⟩
              rw [hmb, findB_skip_middle kv2.1 k0 v' hk2k0 pre suf] at hw
              exact hw
          have hsym := (ih (sizeD (JsonDtype.object ma')
                + sizeD (JsonDtype.object (pre ++ suf)))
              (by
                rw [show sizeD (JsonDtype.object ma') = 1 + sizeM ma' from rfl,
                    show sizeD (JsonDtype.object (pre ++ suf))
                      = 1 + sizeM (pre ++ suf) from rfl, spre]
                omega)).2.1
            (JsonDtype.object ma') (JsonDtype.object (pre ++ suf)) le_rfl
            (by
              rw [wfD_obj_eq]
              simp only [Bool.and_eq_true]
              exact ⟨hwma', hpwa'⟩)
            (by
              rw [wfD_obj_eq]
              simp only [Bool.and_eq_true]
              refine ⟨hwmb', ?_⟩
              rw [keysOf_append]
              exact hpwbsplit.2)
            hred
          rw [beq_obj_iff] at hsym
          obtain ⟨_, hall'⟩ := hsym
          constructor
          · exact hlen.symm
          · intro e2 he2
            rw [hmb] at he2
            have hcases : e2 = (k0, v') ∨ e2 ∈ pre ++ suf := by
              rcases List.mem_append.1 he2 with hm | hm
              · exact Or.inr (List.mem_append.2 (Or.inl hm))
              · rcases List.mem_cons.1 hm with rfl | hm2
                · exact Or.inl rfl
                · exact Or.inr (List.mem_append.2 (Or.inr hm2))
            rcases hcases with rfl | hm
            · have hsk0 : k0.beq k1 = true :=
                (ih (sizeD k1 + sizeD k0) (by omega)).2.1 k1 k0 le_rfl hwk1 hwk0 hbk
              refine ⟨v1, ?_, ?_⟩
              · show findB k0 ((k1, v1) :: ma') = some v1
                rw [findB, hsk0]
                simp
              · show JsonDtype.beq v' v1 = true
                exact (ih (sizeD v1 + sizeD v') (by omega)).2.1 v1 v' le_rfl hwv1 hwv' hbv
            · obtain ⟨u, hu, hvu⟩ := hall' e2 hm
              have hwe2 := wfM_mem (pre ++ suf) hwmb' e2 hm
              have hse2 := sizeD_mem_obj (pre ++ suf) e2 hm
              have hnk : e2.1.beq k1 = false := by
                by_contra hcon
                rw [Bool.not_eq_false] at hcon
                have ht : e2.1.beq k0 = true :=
                  (ih (sizeD e2.1 + sizeD k1 + sizeD k0) (by omega)).2.2
                    e2.1 k1 k0 le_rfl hwe2.1 hwk1 hwk0 hcon hbk
                have hbkey : e2.1 ∈ keysOf pre ++ keysOf suf := by
                  rcases List.mem_append.1 hm with hm2 | hm2
                  · exact List.mem_append.2 (Or.inl (mem_keysOf pre e2 hm2))
                  · exact List.mem_append.2 (Or.inr (mem_keysOf suf e2 hm2))
                have hcontra := (hpwbsplit.1 e2.1 hbkey).2
                rw [ht] at hcontra
                cases hcontra
              refine ⟨u, ?_, hvu⟩
              show findB e2.1 ((k1, v1) :: ma') = some u
              rw [findB, hnk]
              simp only [Bool.false_eq_true, if_false]
              exact hu
    · -- transitivity
      intro x y z hsz hwx hwy hwz hxy hyz
      cases x <;> cases y <;> try exact Bool.noConfusion hxy
      case string.string a b =>
        cases z <;> try exact Bool.noConfusion hyz
        rename_i c
        rw [beq_string] at hxy hyz ⊢
        rw [beq_iff_eq] at hxy hyz ⊢
        exact hxy.trans hyz
      case number.number na nb =>
        cases z <;> try exact Bool.noConfusion hyz
        rename_i nc
        rw [beq_number] at hxy hyz ⊢
        exact numBeq_trans na nb nc hxy hyz
      case boolean.boolean ba bb =>
        cases z <;> try exact Bool.noConfusion hyz
        rename_i bc
        rw [beq_boolean] at hxy hyz ⊢
        rw [beq_iff_eq] at hxy hyz ⊢
        exact hxy.trans hyz
      case null.null =>
        cases z <;> try exact Bool.noConfusion hyz
        rfl
      case array.array aa ab =>
        cases z <;> try exact Bool.noConfusion hyz
        rename_i ac
        rw [beq_arr_iff] at hxy hyz
        obtain ⟨hl1, ha1⟩ := hxy
        obtain ⟨hl2, ha2⟩ := hyz
        rw [beq_arr_iff]
        refine ⟨hl1.trans hl2, ?_⟩
        intro p hp
        obtain ⟨m, h1, h2⟩ := zip_mem_middle aa ab ac hl1 hl2 p hp
        have q1 := ha1 (p.1, m) h1
        have q2 := ha2 (m, p.2) h2
        obtain ⟨e1, e2⟩ := List.of_mem_zip h1
        obtain ⟨_, e3⟩ := List.of_mem_zip h2
        have s1 := sizeD_mem_arr aa p.1 e1
        have s2 := sizeD_mem_arr ab m e2
        have s3 := sizeD_mem_arr ac p.2 e3
        have hx : sizeD (JsonDtype.array aa) = 1 + sizeA aa := rfl
        have hy : sizeD (JsonDtype.array ab) = 1 + sizeA ab := rfl
        have hz : sizeD (JsonDtype.array ac) = 1 + sizeA ac := rfl
        have w1 := wfA_mem aa (by rw [wfD_arr_eq] at hwx; exact hwx) p.1 e1
        have w2 := wfA_mem ab (by rw [wfD_arr_eq] at hwy; exact hwy) m e2
        have w3 := wfA_mem ac (by rw [wfD_arr_eq] at hwz; exact hwz) p.2 e3
        exact (ih (sizeD p.1 + sizeD m + sizeD p.2) (by omega)).2.2
          p.1 m p.2 le_rfl w1 w2 w3 q1 q2
      case object.object ma mb =>
        cases z <;> try exact Bool.noConfusion hyz
        rename_i mc
        rw [wfD_obj_eq] at hwx hwy hwz
        simp only [Bool.and_eq_true] at hwx hwy hwz
        obtain ⟨hwma, hpwa⟩ := hwx
        obtain ⟨hwmb, hpwb⟩ := hwy
        obtain ⟨hwmc, hpwc⟩ := hwz
        rw [beq_obj_iff] at hxy hyz
        obtain ⟨hlen1, hall1⟩ := hxy
        obtain ⟨hlen2, hall2⟩ := hyz
        rw [beq_obj_iff]
        refine ⟨hlen1.trans hlen2, ?_⟩
        intro kv hkv
        obtain ⟨w1, hf1, hv1⟩ := hall1 kv hkv
        obtain ⟨pre1, kb, suf1, hmb, hbk1, hpre1⟩ := findB_some_split kv.1 mb w1 hf1
        have hkbmem : (kb, w1) ∈ mb := by
          rw [hmb]; exact List.mem_append.2 (Or.inr (List.mem_cons_self _ _))
        obtain ⟨w2, hf2, hv2⟩ := hall2 (kb, w1) hkbmem
        obtain ⟨pre2, kc, suf2, hmc, hbk2, hpre2⟩ := findB_some_split kb mc w2 hf2
        have hkcmem : (kc, w2) ∈ mc := by
          rw [hmc]; exact List.mem_append.2 (Or.inr (List.mem_cons_self _ _))
        have hwkv : wfD kv.1 = true ∧ wfD kv.2 = true := wfM_mem ma hwma kv hkv
        have hwkb : wfD kb = true ∧ wfD w1 = true := wfM_mem mb hwmb (kb, w1) hkbmem
        have hwkc : wfD kc = true ∧ wfD w2 = true := wfM_mem mc hwmc (kc, w2) hkcmem
        have hskv := sizeD_mem_obj ma kv hkv
        have hskb : sizeD kb ≤ sizeM mb ∧ sizeD w1 ≤ sizeM mb :=
          sizeD_mem_obj mb (kb, w1) hkbmem
        have hskc : sizeD kc ≤ sizeM mc ∧ sizeD w2 ≤ sizeM mc :=
          sizeD_mem_obj mc (kc, w2) hkcmem
        have sma : sizeD (JsonDtype.object ma) = 1 + sizeM ma := rfl
        have smb : sizeD (JsonDtype.object mb) = 1 + sizeM mb := rfl
        have smc : sizeD (JsonDtype.object mc) = 1 + sizeM mc := rfl
        have hbkc : kv.1.beq kc = true :=
          (ih (sizeD kv.1 + sizeD kb + sizeD kc) (by omega)).2.2
            kv.1 kb kc le_rfl hwkv.1 hwkb.1 hwkc.1 hbk1 hbk2
        have hprefix : ∀ e ∈ pre2, kv.1.beq e.1 = false := by
          intro e he
          by_contra hcon
          rw [Bool.not_eq_false] at hcon
          have hemem : e ∈ mc := by rw [hmc]; exact List.mem_append.2 (Or.inl he)
          have hwe : wfD e.1 = true ∧ wfD e.2 = true := wfM_mem mc hwmc e hemem
          have hse : sizeD e.1 ≤ sizeM mc ∧ sizeD e.2 ≤ sizeM mc :=
            sizeD_mem_obj mc e hemem
          have h1 : e.1.beq kv.1 = true :=
            (ih (sizeD kv.1 + sizeD e.1) (by omega)).2.1 kv.1 e.1 le_rfl hwkv.1 hwe.1 hcon
          have h2 : e.1.beq kb = true :=
            (ih (sizeD e.1 + sizeD kv.1 + sizeD kb) (by omega)).2.2
              e.1 kv.1 kb le_rfl hwe.1 hwkv.1 hwkb.1 h1 hbk1
          have h3 : kb.beq e.1 = true :=
            (ih (sizeD e.1 + sizeD kb) (by omega)).2.1 e.1 kb le_rfl hwe.1 hwkb.1 h2
          have hcontra := hpre2 e he
          rw [h3] at hcontra
          cases hcontra
        refine ⟨w2, ?_, ?_⟩
        · rw [hmc]
          exact findB_of_split kv.1 kc w2 hbkc pre2 suf2 hprefix
        · exact (ih (sizeD kv.2 + sizeD w1 + sizeD w2) (by omega)).2.2
            kv.2 w1 w2 le_rfl hwkv.2 hwkb.2 hwkc.2 hv1 hv2

/-- Rust `==` is reflexive on well-formed values. -/
theorem beq_refl (x : JsonDtype) (h : wfD x = true) : x.beq x = true :=
  (beq_equiv (sizeD x)).1 x le_rfl h

/-- Rust `==` is symmetric on well-formed values. -/
theorem beq_symm (x y : JsonDtype) (hx : wfD x = true) (hy : wfD y = true)
    (h : x.beq y = true) : y.beq x = true :=
  (beq_equiv (sizeD x + sizeD y)).2.1 x y le_rfl hx hy h

/-- Rust `==` is transitive on well-formed values. -/
theorem beq_trans (x y z : JsonDtype) (hx : wfD x = true) (hy : wfD y = true)
    (hz : wfD z = true) (h1 : x.beq y = true) (h2 : y.beq z = true) : x.beq z = true :=
  (beq_equiv (sizeD x + sizeD y + sizeD z)).2.2 x y z le_rfl hx hy hz h1 h2

/-- Lookup after `HashMap::insert`: the inserted key (and anything `==` to
it) now maps to the new value; other keys are untouched. Requires the
`HashMap` key invariant `wfM` for the stored keys. -/
theorem insertJ_findB (k a u : JsonDtype) (hwk : wfD k = true) (hwa : wfD a = true) :
    ∀ (m : Json), wfM m = true →
    findB k (m.insertJ a u) = if k.beq a then some u else findB k m := by
  intro m
  induction m with
  | nil =>
    intro _
    show findB k [(a, u)] = if k.beq a then some u else findB k []
    simp only [findB]
  | cons e t ih =>
    obtain ⟨k2, v2⟩ := e
    intro hwm
    rw [wfM] at hwm
    simp only [Bool.and_eq_true] at hwm
    obtain ⟨⟨hwk2, hwv2⟩, hwt⟩ := hwm
    show findB k (if a.beq k2 then (k2, u) :: t else (k2, v2) :: Json.insertJ t a u) = _
    by_cases hak2 : a.beq k2 = true
    · rw [if_pos hak2, findB]
      by_cases hka : k.beq a = true
      · have hkk2 : k.beq k2 = true := beq_trans k a k2 hwk hwa hwk2 hka hak2
        rw [if_pos hkk2, if_pos hka]
      · have hkk2 : ¬ (k.beq k2 = true) := by
          intro hcon
          have h1 : k2.beq a = true := beq_symm a k2 hwa hwk2 hak2
          exact hka (beq_trans k k2 a hwk hwk2 hwa hcon h1)
        rw [if_neg hkk2, if_neg hka, findB, if_neg hkk2]
    · rw [if_neg hak2, findB]
      by_cases hkk2 : k.beq k2 = true
      · have hka : ¬ (k.beq a = true) := by
          intro hcon
          have h1 : a.beq k = true := beq_symm k a hwk hwa hcon
          exact hak2 (beq_trans a k k2 hwa hwk hwk2 h1 hkk2)
        rw [if_pos hkk2, if_neg hka, findB, if_pos hkk2]
      · rw [if_neg hkk2, ih hwt, findB, if_neg hkk2]

/-- Keys after an insertion come from the old map or are the inserted key. -/
theorem keysOf_insertJ_sub (a u : JsonDtype) :
    ∀ (m : Json) (k2 : JsonDtype), k2 ∈ keysOf (m.insertJ a u) → k2 ∈ keysOf m ∨ k2 = a := by
  intro m
  induction m with
  | nil =>
    intro k2 hk2
    rcases List.mem_cons.1 hk2 with rfl | hm
    · exact Or.inr rfl
    · cases hm
  | cons e t ih =>
    obtain ⟨ka, va⟩ := e
    intro k2 hk2
    have heq : Json.insertJ ((ka, va) :: t) a u
        = if a.beq ka then (ka, u) :: t else (ka, va) :: Json.insertJ t a u := rfl
    rw [heq] at hk2
    by_cases hb : a.beq ka = true
    · rw [if_pos hb] at hk2
      rcases List.mem_cons.1 hk2 with rfl | hm
      · exact Or.inl (List.mem_cons_self _ _)
      · exact Or.inl (List.mem_cons_of_mem _ hm)
    · rw [if_neg hb] at hk2
      rcases List.mem_cons.1 hk2 with rfl | hm
      · exact Or.inl (List.mem_cons_self _ _)
      · rcases ih k2 hm with h | h
        · exact Or.inl (List.mem_cons_of_mem _ h)
        · exact Or.inr h

/-- `HashMap::insert` preserves the key invariant. -/
theorem insertJ_wf (a u : JsonDtype) (hwa : wfD a = true) (hwu : wfD u = true) :
    ∀ (m : Json), wfM m = true → pairwiseNoBeq (keysOf m) = true →
    wfM (m.insertJ a u) = true ∧ pairwiseNoBeq (keysOf (m.insertJ a u)) = true := by
  intro m
  induction m with
  | nil =>
    intro _ _
    constructor
    · show wfM [(a, u)] = true
      rw [wfM]
      simp [hwa, hwu, wfM]
    · show pairwiseNoBeq [a] = true
      simp [pairwiseNoBeq, noBeqKey]
  | cons e t ih =>
    obtain ⟨ka, va⟩ := e
    intro hwm hpw
    rw [wfM] at hwm
    simp only [Bool.and_eq_true] at hwm
    obtain ⟨⟨hwka, hwva⟩, hwt⟩ := hwm
    rw [show keysOf ((ka, va) :: t) = ka :: keysOf t from rfl, pairwiseNoBeq] at hpw
    simp only [Bool.and_eq_true] at hpw
    obtain ⟨hnb, hpwt⟩ := hpw
    have heq : Json.insertJ ((ka, va) :: t) a u
        = if a.beq ka then (ka, u) :: t else (ka, va) :: Json.insertJ t a u := rfl
    rw [heq]
    by_cases hb : a.beq ka = true
    · rw [if_pos hb]
      constructor
      · rw [wfM]
        simp only [Bool.and_eq_true]
        exact ⟨⟨hwka, hwu⟩, hwt⟩
      · rw [show keysOf ((ka, u) :: t) = ka :: keysOf t from rfl, pairwiseNoBeq]
        simp only [Bool.and_eq_true]
        exact ⟨hnb, hpwt⟩
    · rw [if_neg hb]
      obtain ⟨ihw, ihp⟩ := ih hwt hpwt
      constructor
      · rw [wfM]
        simp only [Bool.and_eq_true]
        exact ⟨⟨hwka, hwva⟩, ihw⟩
      · rw [show keysOf ((ka, va) :: Json.insertJ t a u)
              = ka :: keysOf (Json.insertJ t a u) from rfl, pairwiseNoBeq]
        simp only [Bool.and_eq_true]
        refine ⟨?_, ihp⟩
        rw [noBeqKey_iff]
        intro k2 hk2
        rcases keysOf_insertJ_sub a u t k2 hk2 with h | rfl
        · exact (noBeqKey_iff ka (keysOf t)).1 hnb k2 h
        · constructor
          · by_contra hcon
            rw [Bool.not_eq_false] at hcon
            exact hb (beq_symm ka k2 hwka hwa hcon)
          · rw [Bool.not_eq_true] at hb
            exact hb

/-- Lookup after `Json::update`: entries of `other` win, the rest of
`self` survives. -/
theorem update_findB (k : JsonDtype) (hwk : wfD k = true) :
    ∀ (p o : Json), wfM p = true → pairwiseNoBeq (keysOf p) = true →
    wfM o = true → pairwiseNoBeq (keysOf o) = true →
    findB k (o.update p) = (match findB k p with
      | some w => some w
      | none => findB k o) := by
  intro p
  induction p with
  | nil =>
    intro o _ _ _ _
    rfl
  | cons e p' ih =>
    obtain ⟨a, u⟩ := e
    intro o hwp hpwp hwo hpwo
    rw [wfM] at hwp
    simp only [Bool.and_eq_true] at hwp
    obtain ⟨⟨hwa, hwu⟩, hwp'⟩ := hwp
    rw [show keysOf ((a, u) :: p') = a :: keysOf p' from rfl, pairwiseNoBeq] at hpwp
    simp only [Bool.and_eq_true] at hpwp
    obtain ⟨hnba, hpwp'⟩ := hpwp
    have hfold : Json.update o ((a, u) :: p') = Json.update (o.insertJ a u) p' := rfl
    rw [hfold]
    obtain ⟨hwo', hpwo'⟩ := insertJ_wf a u hwa hwu o hwo hpwo
    rw [ih (o.insertJ a u) hwp' hpwp' hwo' hpwo']
    rw [insertJ_findB k a u hwk hwa o hwo]
    rw [show findB k ((a, u) :: p') = if k.beq a then some u else findB k p' from rfl]
    by_cases hka : k.beq a = true
    · have hnone : findB k p' = none := by
        rw [findB_none_iff]
        intro kv hkv
        by_contra hcon
        rw [Bool.not_eq_false] at hcon
        obtain ⟨hwkv1, _⟩ := wfM_mem p' hwp' kv hkv
        have h1 : a.beq k = true := beq_symm k a hwk hwa hka
        have h2 : a.beq kv.1 = true := beq_trans a k kv.1 hwa hwk hwkv1 h1 hcon
        have h3 := ((noBeqKey_iff a (keysOf p')).1 hnba kv.1 (mem_keysOf p' kv hkv)).1
        rw [h2] at h3
        cases h3
      rw [if_pos hka, if_pos hka, hnone]
    · rw [if_neg hka, if_neg hka]

/-- C7: `Json::update` (src/json.rs:515-519) inserts every entry of the
other map into `self`, so afterwards a key is present iff it was present in
`self` before the call or is a key of the other map, and every key of the
other map is mapped to its value there. The `wfJ`/`wfD` hypotheses state
the `HashMap` key invariant: no two stored keys are `==`-equal (this is
what `HashMap` maintains whenever the `Hash`/`Eq` contract holds; see C2
for the code defect that can break that contract). -/
theorem C7_update (o p : Json) (k : JsonDtype) (hwk : wfD k = true)
    (hwo : wfJ o = true) (hwp : wfJ p = true) :
    ((o.update p).containsKey k = (o.containsKey k || p.containsKey k))
      ∧ (∀ w, Json.get p k = some w → Json.get (o.update p) k = some w) := by
  rw [wfJ, wfD_obj_eq] at hwo hwp
  simp only [Bool.and_eq_true] at hwo hwp
  obtain ⟨hwmo, hpwo⟩ := hwo
  obtain ⟨hwmp, hpwp⟩ := hwp
  have hmain := update_findB k hwk p o hwmp hpwp hwmo hpwo
  constructor
  · show (findB k (o.update p)).isSome = ((findB k o).isSome || (findB k p).isSome)
    rw [hmain]
    cases hp : findB k p with
    | none => simp
    | some w => simp
  · intro w hw
    have hw2 : findB k p = some w := hw
    show findB k (o.update p) = some w
    rw [hmain, hw2]

/-- Witness for C7: updating a one-entry map with a fresh key. -/
theorem C7_update_witness :
    ((Json.update [(JsonDtype.string ['a'], JsonDtype.null)]
        [(JsonDtype.string ['b'], JsonDtype.boolean true)]).containsKey
          (JsonDtype.string ['b'])
      = (Json.containsKey [(JsonDtype.string ['a'], JsonDtype.null)]
            (JsonDtype.string ['b'])
          || Json.containsKey [(JsonDtype.string ['b'], JsonDtype.boolean true)]
            (JsonDtype.string ['b'])))
    ∧ (∀ w, Json.get [(JsonDtype.string ['b'], JsonDtype.boolean true)]
          (JsonDtype.string ['b']) = some w →
        Json.get (Json.update [(JsonDtype.string ['a'], JsonDtype.null)]
          [(JsonDtype.string ['b'], JsonDtype.boolean true)]) (JsonDtype.string ['b'])
          = some w) :=
  C7_update [(JsonDtype.string ['a'], JsonDtype.null)]
    [(JsonDtype.string ['b'], JsonDtype.boolean true)]
    (JsonDtype.string ['b']) (by decide) (by decide) (by decide)

end RustJson
